import Mathlib

/-!
# Verification of the subtitle timing and chunking subsystem

Shallow embedding of `src/ass_subtitle_generator.py` (mora timing extraction,
caption chunking, ASS serialization) and `src/subtitle_timing_generator.py`
(coarse sentence-based timing estimation), with theorems checking the
natural-language specification against the code.

Times are modelled as rationals (`ℚ`); Python strings are Lean `String`s
(both measure length in Unicode code points).
-/

namespace Meicho

/-- `MoraTiming` dataclass: one phonetic unit with its absolute time span. -/
structure MoraTiming where
  text : String
  start_time : ℚ
  end_time : ℚ
  consonant_length : ℚ
  vowel_length : ℚ
  pitch : ℚ
deriving DecidableEq, Repr

/-- `SubtitleChunk` dataclass: one caption with its time span and source morae. -/
structure SubtitleChunk where
  text : String
  start_time : ℚ
  end_time : ℚ
  moras : List MoraTiming
deriving DecidableEq, Repr

/-- Output record of `generate_subtitle_segments` (a dict in the source). -/
structure Segment where
  text : String
  start_time : ℚ
  end_time : ℚ
deriving DecidableEq, Repr

/-! ## Chunking parameters (constructor of `ASSSubtitleGenerator`) -/

def max_chars_per_chunk : ℕ := 20
def max_duration_per_chunk : ℚ := 3.0
def min_chunk_duration : ℚ := 0.5
def connection_particles : List String := ["の", "に", "を", "が", "は", "で", "と", "や", "か"]
def pause_punctuation : List String := ["。", "！", "？", "、"]

/-! ## Input shape of `extract_mora_timings` (VoiceVox accent phrases) -/

/-- A raw mora record from the audio query; every field is optional and
coalesced to a zero/empty default by the extractor (`.get(..) or 0.0`). -/
structure RawMora where
  text : Option String
  consonant_length : Option ℚ
  vowel_length : Option ℚ
  pitch : Option ℚ
deriving DecidableEq, Repr

/-- One accent phrase: an ordered mora list plus an optional pause mora. -/
structure Phrase where
  moras : List RawMora
  pause_mora : Option RawMora
deriving DecidableEq, Repr

/-- Body of the inner `for mora in phrase.get('moras', [])` loop. -/
def moraStep (cumulative_time : ℚ) (mora : RawMora) : MoraTiming × ℚ :=
  let consonant_length := mora.consonant_length.getD 0
  let vowel_length := mora.vowel_length.getD 0
  let start_time := cumulative_time
  let end_time := start_time + consonant_length + vowel_length
  (⟨mora.text.getD "", start_time, end_time, consonant_length, vowel_length,
    mora.pitch.getD 0⟩, end_time)

/-- The inner mora loop of `extract_mora_timings`. -/
def morasLoop (cumulative_time : ℚ) : List RawMora → List MoraTiming × ℚ
  | [] => ([], cumulative_time)
  | m :: rest =>
    let p := moraStep cumulative_time m
    let q := morasLoop p.2 rest
    (p.1 :: q.1, q.2)

/-- The pause-mora handling of `extract_mora_timings` (a zero-length pause is
dropped and leaves the clock unchanged). -/
def pauseStep (cumulative_time : ℚ) (pause_mora : Option RawMora) : List MoraTiming × ℚ :=
  match pause_mora with
  | none => ([], cumulative_time)
  | some pm =>
    let consonant_length := pm.consonant_length.getD 0
    let vowel_length := pm.vowel_length.getD 0
    if 0 < consonant_length ∨ 0 < vowel_length then
      let start_time := cumulative_time
      let end_time := start_time + consonant_length + vowel_length
      ([⟨"", start_time, end_time, consonant_length, vowel_length, pm.pitch.getD 0⟩], end_time)
    else ([], cumulative_time)

/-- The outer phrase loop of `extract_mora_timings`. -/
def phrasesLoop (cumulative_time : ℚ) : List Phrase → List MoraTiming × ℚ
  | [] => ([], cumulative_time)
  | p :: rest =>
    let a := morasLoop cumulative_time p.moras
    let b := pauseStep a.2 p.pause_mora
    let c := phrasesLoop b.2 rest
    (a.1 ++ b.1 ++ c.1, c.2)

/-- `ASSSubtitleGenerator.extract_mora_timings`. -/
def extract_mora_timings (accent_phrases : List Phrase) : List MoraTiming :=
  (phrasesLoop 0 accent_phrases).1

/-! ## Chunking (`create_subtitle_chunks` and helpers) -/

/-- `ASSSubtitleGenerator._should_split_chunk`: the chunk-boundary decision. -/
def _should_split_chunk (current_text new_text : String) (current_moras : List MoraTiming)
    (new_mora : MoraTiming) (index : ℕ) (all_moras : List MoraTiming) : Bool :=
  match current_moras with
  | [] => false
  | m0 :: _ =>
    if (max_chars_per_chunk : ℕ) < new_text.length then true
    else if max_duration_per_chunk < new_mora.end_time - m0.start_time then true
    else if current_text ≠ "" ∧ current_text.back.toString ∈ pause_punctuation then true
    else if new_mora.text ∈ connection_particles then false
    else if current_text ≠ "" ∧ current_text.back.toString ∈ connection_particles ∧
        3 ≤ current_text.length then true
    else false

/-- Last element of a nonempty mora list (`moras[-1]` in the source). -/
def lastMora (m : MoraTiming) : List MoraTiming → MoraTiming
  | [] => m
  | m' :: rest => lastMora m' rest

/-- `ASSSubtitleGenerator._create_chunk_from_moras`. -/
def _create_chunk_from_moras (moras : List MoraTiming) (text : String) : SubtitleChunk :=
  match moras with
  | [] => ⟨"", 0, 0, []⟩
  | m0 :: rest => ⟨text, m0.start_time, (lastMora m0 rest).end_time, m0 :: rest⟩

/-- `ASSSubtitleGenerator._optimize_chunks`: single forward merge pass over
chunks that are shorter than `min_chunk_duration`. -/
def _optimize_chunks : List SubtitleChunk → List SubtitleChunk
  | [] => []
  | [c] => [c]
  | c1 :: c2 :: rest =>
    if c1.end_time - c1.start_time < min_chunk_duration ∧
        c1.text.length + c2.text.length ≤ max_chars_per_chunk then
      (⟨c1.text ++ c2.text, c1.start_time, c2.end_time, c1.moras ++ c2.moras⟩ : SubtitleChunk) ::
        _optimize_chunks rest
    else c1 :: _optimize_chunks (c2 :: rest)

/-- The scan loop of `create_subtitle_chunks` (state: remaining morae, index,
full list, current chunk morae, current chunk text, finished chunks). -/
def chunksLoop (moras : List MoraTiming) (index : ℕ) (all_moras : List MoraTiming)
    (current_chunk_moras : List MoraTiming) (current_text : String)
    (chunks : List SubtitleChunk) : List SubtitleChunk :=
  match moras with
  | [] =>
    if current_chunk_moras ≠ [] then
      chunks ++ [_create_chunk_from_moras current_chunk_moras current_text]
    else chunks
  | mora :: rest =>
    if mora.text = "" then
      chunksLoop rest (index + 1) all_moras current_chunk_moras current_text chunks
    else
      let new_text := current_text ++ mora.text
      let new_chunk_moras := current_chunk_moras ++ [mora]
      if _should_split_chunk current_text new_text current_chunk_moras mora index all_moras
          = true ∧ current_chunk_moras ≠ [] then
        chunksLoop rest (index + 1) all_moras [mora] mora.text
          (chunks ++ [_create_chunk_from_moras current_chunk_moras current_text])
      else
        chunksLoop rest (index + 1) all_moras new_chunk_moras new_text chunks

/-- `ASSSubtitleGenerator.create_subtitle_chunks`. -/
def create_subtitle_chunks (mora_timings : List MoraTiming) : List SubtitleChunk :=
  if mora_timings = [] then []
  else _optimize_chunks (chunksLoop mora_timings 0 mora_timings [] "" [])

/-! ## Coarse timing estimation (`SubtitleTimingGenerator`) -/

def chars_per_second : ℚ := 8.0
def min_subtitle_gap : ℚ := 0.3
def min_display_time : ℚ := 1.2
def max_display_time : ℚ := 5.0
/-- The regex class `[。！？\n]` of `sentence_delimiters`. -/
def sentence_delimiters : List Char := ['。', '！', '？', '\n']

/-- Python's `str.strip()`: drop leading and trailing whitespace. -/
def pyStrip (s : String) : String :=
  ⟨((s.data.dropWhile Char.isWhitespace).reverse.dropWhile Char.isWhitespace).reverse⟩

/-- `re.split(r'[。！？\n]', text)`: fragments between delimiter occurrences,
empty fragments included. -/
def reSplitChars : List Char → List Char → List String
  | [], acc => [⟨acc.reverse⟩]
  | c :: rest, acc =>
    if c ∈ sentence_delimiters then (⟨acc.reverse⟩ : String) :: reSplitChars rest []
    else reSplitChars rest (c :: acc)

/-- `processed_sentences[-1] += sentence` on a nonempty list. -/
def appendToLast : List String → String → List String
  | [], _ => []
  | [x], s => [x ++ s]
  | x :: y :: rest, s => x :: appendToLast (y :: rest) s

/-- The cleanup loop of `_split_into_sentences`: strip, drop empties, and glue
fragments shorter than 5 characters onto the previously emitted sentence. -/
def processSentences : List String → List String → List String
  | [], processed => processed
  | s :: rest, processed =>
    let s' := pyStrip s
    if s' = "" then processSentences rest processed
    else if s'.length < 5 ∧ processed ≠ [] then processSentences rest (appendToLast processed s')
    else processSentences rest (processed ++ [s'])

/-- `SubtitleTimingGenerator._split_into_sentences`. The char-level
`text.replace('\n', '。')` is applied to the character list directly. -/
def _split_into_sentences (text : String) : List String :=
  let t : List Char := text.data.map (fun c => if c = '\n' then '。' else c)
  processSentences (reSplitChars t []) []

/-- Error raised by `generate_subtitle_segments` for a non-positive duration
(a `ValueError` in the source; the spec names it `InvalidDurationError`). -/
inductive TimingError where
  | invalidDuration
deriving DecidableEq, Repr

/-- The clamped display duration of one sentence: the character-weighted
duration, scaled to the total duration and clamped into
`[min_display_time, max_display_time]`. -/
def displayDuration (total_duration : ℚ) (total_chars length : ℕ) : ℚ :=
  let raw_duration := (length : ℚ) / chars_per_second
  let dscale := total_duration / ((total_chars : ℚ) / chars_per_second)
  let adjusted_duration := raw_duration * dscale
  max min_display_time (min adjusted_duration max_display_time)

/-- The per-sentence loop of `generate_subtitle_segments` (state: remaining
(sentence, length) pairs and the running cursor `current_time`). -/
def segLoop (pairs : List (String × ℕ)) (total_duration : ℚ) (total_chars : ℕ)
    (current_time : ℚ) : List Segment :=
  match pairs with
  | [] => []
  | (sentence, length) :: rest =>
    if length = 0 then segLoop rest total_duration total_chars current_time
    else
      let display_duration := displayDuration total_duration total_chars length
      let e := current_time + display_duration
      let end_time := if total_duration < e then total_duration else e
      let seg : Segment := ⟨pyStrip sentence, current_time, end_time⟩
      let next_time := end_time + min_subtitle_gap
      if total_duration ≤ next_time then [seg]
      else seg :: segLoop rest total_duration total_chars next_time

/-- Final adjustment of `generate_subtitle_segments`: clamp the last segment
end to the total duration. -/
def fixLast : List Segment → ℚ → List Segment
  | [], _ => []
  | [s], total_duration =>
    if total_duration < s.end_time then [{ s with end_time := total_duration }] else [s]
  | s :: s' :: rest, total_duration => s :: fixLast (s' :: rest) total_duration

/-- `SubtitleTimingGenerator.generate_subtitle_segments`. The audio-file
probing is out of scope; the probed `total_duration` is passed directly. -/
def generate_subtitle_segments (text : String) (total_duration : ℚ) :
    Except TimingError (List Segment) :=
  if total_duration ≤ 0 then .error .invalidDuration
  else
    let sentences := _split_into_sentences text
    if sentences = [] then .ok []
    else
      let sentence_lengths := sentences.map (fun s => (pyStrip s).length)
      let total_chars := sentence_lengths.sum
      if total_chars = 0 then .ok []
      else .ok (fixLast (segLoop (sentences.zip sentence_lengths) total_duration total_chars 0)
        total_duration)

/-! ## Text-based chunking (`create_subtitle_chunks_from_text_and_timings`) -/

/-- The first loop of `create_subtitle_chunks_from_text_and_timings`: split the
original text into sentences at pause punctuation, keeping the delimiter. -/
def splitKeepLoop : List Char → String → List String
  | [], current_sentence =>
    if pyStrip current_sentence ≠ "" then [pyStrip current_sentence] else []
  | ch :: rest, current_sentence =>
    let cur := current_sentence.push ch
    if ch.toString ∈ pause_punctuation then pyStrip cur :: splitKeepLoop rest ""
    else splitKeepLoop rest cur

/-- `words[i:i+chunk_size] for i in range(0, len(words), chunk_size)` with
`chunk_size = max_chars_per_chunk`. -/
def toPieces : List Char → List (List Char)
  | [] => []
  | c :: rest =>
    ((c :: rest).take max_chars_per_chunk) :: toPieces ((c :: rest).drop max_chars_per_chunk)
termination_by l => l.length
decreasing_by simp [max_chars_per_chunk]; omega

/-- The inner piece loop for a sentence longer than `max_chars_per_chunk`;
returns the emitted chunks and the advanced cursor. -/
def emitPieces (pieces : List (List Char)) (estimated_duration : ℚ) (slen : ℕ)
    (current_time : ℚ) : List SubtitleChunk × ℚ :=
  match pieces with
  | [] => ([], current_time)
  | p :: rest =>
    let chunk_duration := estimated_duration * (p.length : ℚ) / (slen : ℚ)
    let c : SubtitleChunk := ⟨⟨p⟩, current_time, current_time + chunk_duration, []⟩
    let q := emitPieces rest estimated_duration slen (current_time + chunk_duration + 0.1)
    (c :: q.1, q.2)

/-- The per-sentence loop of `create_subtitle_chunks_from_text_and_timings`. -/
def textChunksLoop (sentences : List String) (total_duration : ℚ) (total_chars : ℕ)
    (current_time : ℚ) : List SubtitleChunk :=
  match sentences with
  | [] => []
  | sentence :: rest =>
    if sentence = "" then textChunksLoop rest total_duration total_chars current_time
    else
      let cshare : ℚ := if 0 < total_chars then (sentence.length : ℚ) / (total_chars : ℚ) else 0
      let estimated_duration := total_duration * cshare
      if sentence.length ≤ max_chars_per_chunk then
        (⟨sentence, current_time, current_time + estimated_duration, []⟩ : SubtitleChunk) ::
          textChunksLoop rest total_duration total_chars (current_time + estimated_duration + 0.2)
      else
        let q := emitPieces (toPieces sentence.data) estimated_duration sentence.length
          current_time
        q.1 ++ textChunksLoop rest total_duration total_chars q.2

/-- `ASSSubtitleGenerator.create_subtitle_chunks_from_text_and_timings`. -/
def create_subtitle_chunks_from_text_and_timings (original_text : String)
    (mora_timings : List MoraTiming) : List SubtitleChunk :=
  match mora_timings with
  | [] => []
  | m0 :: ms =>
    let sentences := splitKeepLoop original_text.data ""
    let total_duration := (lastMora m0 ms).end_time
    let total_chars := original_text.length
    textChunksLoop sentences total_duration total_chars 0

/-! ## ASS serialization (`generate_ass_content`, `_format_ass_time`) -/

/-- Python `int()` applied to a float value: truncation toward zero. -/
def pythonInt (q : ℚ) : ℤ := if q < 0 then -(⌊-q⌋) else ⌊q⌋

/-- The decimal digit character for `d < 10`. -/
def digitChar (d : ℕ) : Char := Char.ofNat (48 + d)

/-- Decimal rendering of a natural number (Python `str`/`f"{n}"`). -/
def natRepr (n : ℕ) : String :=
  if n = 0 then "0" else ⟨(Nat.digits 10 n).reverse.map digitChar⟩

/-- Decimal rendering of an integer (Python `f"{i}"`). -/
def intRepr (i : ℤ) : String :=
  if i < 0 then "-" ++ natRepr (-i).toNat else natRepr i.toNat

/-- Python `f"{i:02d}"`: zero-pad to width 2. -/
def pad2 (i : ℤ) : String := if 0 ≤ i ∧ i < 10 then "0" ++ intRepr i else intRepr i

/-- `ASSSubtitleGenerator._format_ass_time`: seconds to `H:MM:SS.CC`.
Python `//`/`%` on a positive modulus agree with `Int.ediv`/`Int.emod`. -/
def _format_ass_time (seconds : ℚ) : String :=
  let total_centiseconds := pythonInt (seconds * 100)
  let hours := Int.ediv total_centiseconds 360000
  let minutes := Int.ediv (Int.emod total_centiseconds 360000) 6000
  let secs := Int.ediv (Int.emod total_centiseconds 6000) 100
  let centiseconds := Int.emod total_centiseconds 100
  intRepr hours ++ ":" ++ pad2 minutes ++ ":" ++ pad2 secs ++ "." ++ pad2 centiseconds

/-- Numeric value of a decimal digit character. -/
def digitVal (c : Char) : ℕ := c.toNat - 48

/-- Value of a most-significant-first decimal digit string. -/
def digitsVal (l : List Char) : ℕ := l.foldl (fun a c => 10 * a + digitVal c) 0

/-- The inverse of `_format_ass_time`: parse `H:MM:SS.CC` back to seconds. -/
def parseAssTime (s : String) : Option ℚ :=
  match s.data.span (fun c => c.isDigit) with
  | (hd, rest) =>
    match hd, rest with
    | _ :: _, k1 :: a :: b :: k2 :: c :: d :: k3 :: e :: f :: [] =>
      if k1 = ':' ∧ k2 = ':' ∧ k3 = '.' ∧ a.isDigit ∧ b.isDigit ∧ c.isDigit ∧ d.isDigit ∧
          e.isDigit ∧ f.isDigit then
        some ((digitsVal hd : ℚ) * 3600 + (digitsVal [a, b] : ℚ) * 60 + (digitsVal [c, d] : ℚ)
          + (digitsVal [e, f] : ℚ) / 100)
      else none
    | _, _ => none

/-- One character of the newline escaping: `\n` becomes `\N`, everything else
is kept. -/
def escStep (c : Char) (acc : List Char) : List Char :=
  if c = '\n' then '\\' :: 'N' :: acc else c :: acc

/-- `chunk.text.replace('\n', '\\N')`: escape newlines for ASS dialogue text. -/
def escapeAssText (text : String) : String :=
  ⟨text.data.foldr escStep []⟩

/-- The fixed ASS header emitted by `generate_ass_content`. -/
def assHeader : String :=
  "[Script Info]\nTitle: VoiceVox Generated Subtitles\nScriptType: v4.00+\nWrapStyle: 0\nScaledBorderAndShadow: yes\nYCbCr Matrix: TV.601\nPlayResX: 1920\nPlayResY: 1080\n\n[V4+ Styles]\nFormat: Name, Fontname, Fontsize, PrimaryColour, SecondaryColour, OutlineColour, BackColour, Bold, Italic, Underline, StrikeOut, ScaleX, ScaleY, Spacing, Angle, BorderStyle, Outline, Shadow, Alignment, MarginL, MarginR, MarginV, Encoding\nStyle: Default,Noto Sans CJK JP,64,&H00FFFFFF,&H000000FF,&H00000000,&H80000000,0,0,0,0,100,100,0,0,1,3,0,2,60,60,60,1\n\n[Events]\nFormat: Layer, Start, End, Style, Name, MarginL, MarginR, MarginV, Effect, Text\n"

/-- One `Dialogue:` line of `generate_ass_content`. -/
def dialogueLine (style_name : String) (chunk : SubtitleChunk) : String :=
  "Dialogue: 0," ++ _format_ass_time chunk.start_time ++ "," ++ _format_ass_time chunk.end_time
    ++ "," ++ style_name ++ ",,0,0,0,," ++ escapeAssText chunk.text

/-- `ASSSubtitleGenerator.generate_ass_content`. -/
def generate_ass_content (subtitle_chunks : List SubtitleChunk)
    (style_name : String := "Default") : String :=
  assHeader ++ String.intercalate "\n" (subtitle_chunks.map (dialogueLine style_name))

/-! ## Verification predicates -/

/-- `l` is a contiguous timeline running from time `t` to time `t'`. -/
def runFrom : ℚ → List MoraTiming → ℚ → Prop
  | t, [], t' => t' = t
  | t, m :: rest, t' => m.start_time = t ∧ runFrom m.end_time rest t'

/-- Well-formed timing list per the data model: non-decreasing, non-overlapping
spans with `start_time ≤ end_time` for each unit. -/
def MoraChain (l : List MoraTiming) : Prop :=
  List.Chain' (fun a b => a.end_time ≤ b.start_time) l ∧ ∀ m ∈ l, m.start_time ≤ m.end_time

/-- `MoraChain` plus non-negative times (as produced by `extract_mora_timings`). -/
def WFTimings (l : List MoraTiming) : Prop :=
  MoraChain l ∧ ∀ m ∈ l, 0 ≤ m.start_time

/-- In-order concatenation of the mora texts. -/
def concatTexts (l : List MoraTiming) : String := l.foldr (fun m acc => m.text ++ acc) ""

/-- Structural consistency of a chunk with its source morae. -/
def goodChunk (c : SubtitleChunk) : Prop :=
  (∃ m0 ms, c.moras = m0 :: ms ∧ c.start_time = m0.start_time ∧
    c.end_time = (lastMora m0 ms).end_time) ∧
  c.text = concatTexts c.moras ∧ (∀ m ∈ c.moras, m.text ≠ "")

/-- Chunk list sorted and non-overlapping, with each span well-oriented. -/
def orderedChunks (l : List SubtitleChunk) : Prop :=
  (∀ c ∈ l, c.start_time ≤ c.end_time) ∧
  List.Chain' (fun a b => a.end_time ≤ b.start_time) l

/-! ## Lemmas about the split decision -/

/-- Characterization of `_should_split_chunk` on a nonempty current chunk:
the four triggers in the source, with the particle override suppressing only
the particle-boundary trigger. -/
theorem should_split_cons_iff (ct nt : String) (m0 : MoraTiming) (cms : List MoraTiming)
    (nm : MoraTiming) (i : ℕ) (all : List MoraTiming) :
    _should_split_chunk ct nt (m0 :: cms) nm i all = true ↔
      ((max_chars_per_chunk : ℕ) < nt.length ∨
        max_duration_per_chunk < nm.end_time - m0.start_time ∨
        (ct ≠ "" ∧ ct.back.toString ∈ pause_punctuation) ∨
        (nm.text ∉ connection_particles ∧ ct ≠ "" ∧ ct.back.toString ∈ connection_particles ∧
          3 ≤ ct.length)) := by
  simp only [_should_split_chunk]
  split_ifs with h1 h2 h3 h4 h5 <;> simp_all

/-- C1: the claim as stated is false. With current chunk text `、` (ending in
pause punctuation) and incoming particle mora `の`, neither the character-count
nor the duration trigger fires, yet `create_subtitle_chunks` splits before the
particle: the trailing-punctuation trigger is checked before the particle
override in `_should_split_chunk`. -/
theorem C1_counterexample :
    let m1 : MoraTiming := ⟨"、", 0, 1, 0, 1, 0⟩
    let m2 : MoraTiming := ⟨"の", 1, 2, 0, 1, 0⟩
    m2.text ∈ connection_particles ∧
    ("、の" : String).length ≤ max_chars_per_chunk ∧
    m2.end_time - m1.start_time ≤ max_duration_per_chunk ∧
    create_subtitle_chunks [m1, m2] =
      [⟨"、", 0, 1, [m1]⟩, ⟨"の", 1, 2, [m2]⟩] := by
  refine ⟨by decide, by decide, by norm_num [max_duration_per_chunk], ?_⟩
  norm_num [create_subtitle_chunks, chunksLoop, _should_split_chunk, _create_chunk_from_moras,
    _optimize_chunks, lastMora, max_chars_per_chunk, max_duration_per_chunk, min_chunk_duration,
    connection_particles, pause_punctuation]
  intro h
  exact absurd h (List.cons_ne_nil _ _)

/-- C1 (amended): when the incoming mora's text is a connective particle and
neither the character-count trigger, the duration trigger, nor the
trailing-punctuation trigger fires, no split occurs and the mora is appended
to the current chunk; only the particle-boundary trigger is suppressed by the
override, not the trailing-punctuation trigger. -/
theorem C1_claim (current_text : String) (m0 : MoraTiming)
    (cms : List MoraTiming) (new_mora : MoraTiming) (index : ℕ) (all_moras : List MoraTiming)
    (hpart : new_mora.text ∈ connection_particles)
    (hchar : (current_text ++ new_mora.text).length ≤ max_chars_per_chunk)
    (hdur : new_mora.end_time - m0.start_time ≤ max_duration_per_chunk)
    (hpunct : current_text = "" ∨ current_text.back.toString ∉ pause_punctuation) :
    _should_split_chunk current_text (current_text ++ new_mora.text) (m0 :: cms) new_mora
      index all_moras = false ∧
    ∀ rest chunks, chunksLoop (new_mora :: rest) index all_moras (m0 :: cms) current_text chunks
      = chunksLoop rest (index + 1) all_moras ((m0 :: cms) ++ [new_mora])
          (current_text ++ new_mora.text) chunks := by
  have hne : new_mora.text ≠ "" := by
    simp only [connection_particles, List.mem_cons, List.not_mem_nil, or_false] at hpart
    rcases hpart with h | h | h | h | h | h | h | h | h <;> (rw [h]; decide)
  have hsplit : _should_split_chunk current_text (current_text ++ new_mora.text) (m0 :: cms)
      new_mora index all_moras = false := by
    rw [Bool.eq_false_iff]
    intro h
    rw [should_split_cons_iff] at h
    rcases h with h | h | h | h
    · omega
    · linarith
    · rcases hpunct with h' | h' <;> simp_all
    · exact h.1 hpart
  refine ⟨hsplit, fun rest chunks => ?_⟩
  rw [chunksLoop, if_neg (by simp [hne]), if_neg (by simp [hsplit])]

/-- Witness for `C1_claim` at a concrete input: particle `の` after plain
text `ああ` is appended, not split off. -/
theorem C1_witness :
    _should_split_chunk "ああ" ("ああ" ++ "の") [⟨"あ", 0, 1, 0, 1, 0⟩] ⟨"の", 1, 2, 0, 1, 0⟩ 2
      [] = false :=
  (C1_claim "ああ" ⟨"あ", 0, 1, 0, 1, 0⟩ [] ⟨"の", 1, 2, 0, 1, 0⟩ 2 []
    (by decide) (by decide) (by norm_num [max_duration_per_chunk]) (by decide)).1

/-- C7: with a nonempty current chunk, a combined text length of 21 always
splits, and at exactly 20 the split decision is exactly the disjunction of the
remaining triggers — the character-count trigger contributes nothing. -/
theorem C7_claim (current_text new_text : String) (m0 : MoraTiming) (cms : List MoraTiming)
    (new_mora : MoraTiming) (index : ℕ) (all_moras : List MoraTiming) :
    (new_text.length = 21 →
      _should_split_chunk current_text new_text (m0 :: cms) new_mora index all_moras = true) ∧
    (new_text.length = 20 →
      (_should_split_chunk current_text new_text (m0 :: cms) new_mora index all_moras = true ↔
        max_duration_per_chunk < new_mora.end_time - m0.start_time ∨
        (current_text ≠ "" ∧ current_text.back.toString ∈ pause_punctuation) ∨
        (new_mora.text ∉ connection_particles ∧ current_text ≠ "" ∧
          current_text.back.toString ∈ connection_particles ∧ 3 ≤ current_text.length))) := by
  constructor
  · intro h21
    rw [should_split_cons_iff]
    left
    simp [h21, max_chars_per_chunk]
  · intro h20
    rw [should_split_cons_iff]
    have : ¬ ((max_chars_per_chunk : ℕ) < new_text.length) := by
      simp [h20, max_chars_per_chunk]
    tauto

/-- Witness for `C7_claim`: a 21-character candidate text splits. -/
theorem C7_witness :
    _should_split_chunk "aaaaaaaaaaaaaaaaaaaa" "aaaaaaaaaaaaaaaaaaaaa"
      [⟨"a", 0, 1, 0, 1, 0⟩] ⟨"a", 1, 2, 0, 1, 0⟩ 20 [] = true :=
  (C7_claim "aaaaaaaaaaaaaaaaaaaa" "aaaaaaaaaaaaaaaaaaaaa" ⟨"a", 0, 1, 0, 1, 0⟩ []
    ⟨"a", 1, 2, 0, 1, 0⟩ 20 []).1 (by decide)

/-! ## C3: the optimization merge pass -/

/-- C3: the claim is false. Three consecutive 0.1 s chunks: one pass merges the
first two into a 0.2 s chunk that is still below `min_chunk_duration` and still
mergeable with the third, so a second pass merges again. -/
theorem C3_counterexample :
    _optimize_chunks (_optimize_chunks
        [⟨"a", 0, 1/10, []⟩, ⟨"b", 1/10, 1/5, []⟩, ⟨"c", 1/5, 3/10, []⟩]) ≠
      _optimize_chunks [⟨"a", 0, 1/10, []⟩, ⟨"b", 1/10, 1/5, []⟩, ⟨"c", 1/5, 3/10, []⟩] := by
  have hab : ("a" : String).length + ("b" : String).length ≤ 20 := by decide
  have habc : ("ab" : String).length + ("c" : String).length ≤ 20 := by decide
  have h1 : _optimize_chunks [(⟨"a", 0, 1/10, []⟩ : SubtitleChunk), ⟨"b", 1/10, 1/5, []⟩,
      ⟨"c", 1/5, 3/10, []⟩] = [⟨"ab", 0, 1/5, []⟩, ⟨"c", 1/5, 3/10, []⟩] := by
    norm_num [_optimize_chunks, min_chunk_duration, max_chars_per_chunk, hab]
    rfl
  have h2 : _optimize_chunks [(⟨"ab", 0, 1/5, []⟩ : SubtitleChunk), ⟨"c", 1/5, 3/10, []⟩] =
      [⟨"abc", 0, 3/10, []⟩] := by
    norm_num [_optimize_chunks, min_chunk_duration, max_chars_per_chunk, habc]
    rfl
  rw [h1, h2]
  simp

/-- C3 (amended): the merge pass is not idempotent in general — a merge can
itself produce a chunk below `min_chunk_duration` that is mergeable with its
successor, so a second application can change the output. The pass is the
identity (hence idempotent) on any chunk list in which every chunk already has
duration at least `min_chunk_duration`. -/
theorem C3_claim :
    ∀ chunks : List SubtitleChunk,
      (∀ c ∈ chunks, min_chunk_duration ≤ c.end_time - c.start_time) →
      _optimize_chunks chunks = chunks
  | [], _ => rfl
  | [c], _ => rfl
  | c1 :: c2 :: rest, h => by
    have h1 := h c1 (by simp)
    rw [_optimize_chunks, if_neg (by rintro ⟨hlt, -⟩; linarith)]
    congr 1
    exact C3_claim (c2 :: rest) (fun c hc => h c (List.mem_cons_of_mem _ hc))

/-- Witness for `C3_claim`: a list whose chunks all last at least 0.5 s is
returned unchanged. -/
theorem C3_witness :
    _optimize_chunks [⟨"a", 0, 1, []⟩, ⟨"b", 1, 2, []⟩] = [⟨"a", 0, 1, []⟩, ⟨"b", 1, 2, []⟩] :=
  C3_claim [⟨"a", 0, 1, []⟩, ⟨"b", 1, 2, []⟩] (by
    intro c hc
    simp only [List.mem_cons, List.not_mem_nil, or_false] at hc
    rcases hc with rfl | rfl <;> norm_num [min_chunk_duration])

/-! ## C5: error behaviour of `generate_subtitle_segments` -/

/-- C5: `generate_subtitle_segments` fails exactly on a non-positive total
duration, and the failure is always `invalidDuration`; a positive duration
with empty text returns the empty list, not an error. -/
theorem C5_claim (text : String) (total_duration : ℚ) :
    ((∃ e, generate_subtitle_segments text total_duration = .error e) ↔ total_duration ≤ 0) ∧
    (generate_subtitle_segments text total_duration = .error .invalidDuration ↔
      total_duration ≤ 0) ∧
    (0 < total_duration → generate_subtitle_segments "" total_duration = .ok []) := by
  refine ⟨⟨?_, ?_⟩, ⟨?_, ?_⟩, ?_⟩
  · rintro ⟨e, he⟩
    by_contra hpos
    rw [generate_subtitle_segments, if_neg hpos] at he
    dsimp only at he
    split_ifs at he
  · intro h
    exact ⟨.invalidDuration, by rw [generate_subtitle_segments, if_pos h]⟩
  · intro he
    by_contra hpos
    rw [generate_subtitle_segments, if_neg hpos] at he
    dsimp only at he
    split_ifs at he
  · intro h
    rw [generate_subtitle_segments, if_pos h]
  · intro h
    rw [generate_subtitle_segments, if_neg (by linarith)]
    have hsent : _split_into_sentences "" = [] := rfl
    dsimp only
    rw [hsent, if_pos rfl]

/-- Witness for `C5_claim`: duration 0 raises, duration 1 with empty text
yields the empty segment list. -/
theorem C5_witness :
    generate_subtitle_segments "abc" 0 = .error .invalidDuration ∧
    generate_subtitle_segments "" 1 = .ok [] :=
  ⟨(C5_claim "abc" 0).2.1.mpr (by norm_num), (C5_claim "" 1).2.2 (by norm_num)⟩

/-! ## C4: Scenario A -/

/-- Sentence split of the Scenario A text (pure string computation). -/
theorem scenarioA_sentences :
    _split_into_sentences "これはテストです。次の文です。" = ["これはテストです", "次の文です"] := by
  decide

/-- Evaluation of the Scenario A segment loop: the first sentence's scaled
duration 80/13 clamps to 5.0; the second gets 50/13 starting at 5.3. -/
theorem scenarioA_segLoop :
    segLoop [("これはテストです", 8), ("次の文です", 5)] 10 13 0 =
      [⟨"これはテストです", 0, 5⟩, ⟨"次の文です", 53/10, 1189/130⟩] := by
  have hp1 : pyStrip "これはテストです" = "これはテストです" := by decide
  have hp2 : pyStrip "次の文です" = "次の文です" := by decide
  rw [segLoop]
  norm_num [displayDuration, chars_per_second, min_subtitle_gap, min_display_time,
    max_display_time, max_def, min_def, hp1]
  rw [segLoop]
  norm_num [displayDuration, chars_per_second, min_subtitle_gap, min_display_time,
    max_display_time, max_def, min_def, hp2]
  rfl

/-- Full evaluation of Scenario A. -/
theorem scenarioA_eval :
    generate_subtitle_segments "これはテストです。次の文です。" 10 =
      .ok [⟨"これはテストです", 0, 5⟩, ⟨"次の文です", 53/10, 1189/130⟩] := by
  rw [generate_subtitle_segments, if_neg (by norm_num)]
  dsimp only
  rw [scenarioA_sentences]
  have hl1 : (pyStrip "これはテストです").length = 8 := by decide
  have hl2 : (pyStrip "次の文です").length = 5 := by decide
  simp only [List.map, hl1, hl2, List.sum_cons, List.sum_nil, List.zip]
  norm_num [List.zipWith, scenarioA_segLoop, fixLast]
  intro h
  exact absurd h (List.cons_ne_nil _ _)

/-- C4: the claim is false on the code. Scenario A produces 2 segments of
in-range durations, but the last segment ends at 1189/130 ≈ 9.146 s, not at
exactly 10.0: the second sentence's scaled duration 50/13 added to the cursor
5.3 falls short of the total duration and no rule extends it. -/
theorem C4_counterexample :
    generate_subtitle_segments "これはテストです。次の文です。" 10 =
      .ok [⟨"これはテストです", 0, 5⟩, ⟨"次の文です", 53/10, 1189/130⟩] ∧
    ((1189 : ℚ)/130 ≠ 10) :=
  ⟨scenarioA_eval, by norm_num⟩

/-- C4 (amended): Scenario A produces exactly 2 segments, both with duration
inside `[min_display_time, max_display_time]`, and the last segment's
`end_time` is 1189/130 ≈ 9.146 s — at most, but not exactly, the total
duration 10.0. -/
theorem C4_claim :
    ∃ s1 s2 : Segment,
      generate_subtitle_segments "これはテストです。次の文です。" 10 = .ok [s1, s2] ∧
      min_display_time ≤ s1.end_time - s1.start_time ∧
      s1.end_time - s1.start_time ≤ max_display_time ∧
      min_display_time ≤ s2.end_time - s2.start_time ∧
      s2.end_time - s2.start_time ≤ max_display_time ∧
      s2.end_time = 1189/130 ∧ s2.end_time < 10 := by
  refine ⟨⟨"これはテストです", 0, 5⟩, ⟨"次の文です", 53/10, 1189/130⟩, scenarioA_eval,
    ?_, ?_, ?_, ?_, rfl, ?_⟩ <;> norm_num [min_display_time, max_display_time]

/-! ## C9: contiguity of `extract_mora_timings` -/

theorem runFrom_append {t t1 t2 : ℚ} : ∀ {l1 l2 : List MoraTiming},
    runFrom t l1 t1 → runFrom t1 l2 t2 → runFrom t (l1 ++ l2) t2
  | [], _, h1, h2 => by cases h1; exact h2
  | m :: rest, l2, h1, h2 => ⟨h1.1, runFrom_append h1.2 h2⟩

theorem runFrom_chain : ∀ {l : List MoraTiming} {t t' : ℚ}, runFrom t l t' →
    List.Chain' (fun a b => b.start_time = a.end_time) l
  | [], _, _, _ => List.chain'_nil
  | [_], _, _, _ => List.chain'_singleton _
  | m :: m' :: rest, t, t', h => by
    refine List.chain'_cons.mpr ⟨h.2.1, ?_⟩
    exact runFrom_chain h.2

theorem runFrom_head {l : List MoraTiming} {t t' : ℚ} (h : runFrom t l t') :
    ∀ m, l.head? = some m → m.start_time = t := by
  cases l with
  | nil => intro m hm; cases hm
  | cons m0 rest => intro m hm; cases hm; exact h.1

theorem morasLoop_run (ms : List RawMora) : ∀ t : ℚ,
    runFrom t (morasLoop t ms).1 (morasLoop t ms).2 ∧
    ∀ m ∈ (morasLoop t ms).1,
      m.end_time = m.start_time + m.consonant_length + m.vowel_length := by
  induction ms with
  | nil => exact fun t => ⟨rfl, by simp [morasLoop]⟩
  | cons m rest ih =>
    intro t
    refine ⟨⟨rfl, ?_⟩, ?_⟩
    · have := (ih (moraStep t m).2).1
      simpa [moraStep] using this
    · intro x hx
      rcases List.mem_cons.mp (by simpa [morasLoop] using hx) with rfl | hx'

      · simp [moraStep]
      · exact (ih (moraStep t m).2).2 x hx'

theorem pauseStep_run (pm : Option RawMora) (t : ℚ) :
    runFrom t (pauseStep t pm).1 (pauseStep t pm).2 ∧
    ∀ m ∈ (pauseStep t pm).1,
      m.end_time = m.start_time + m.consonant_length + m.vowel_length := by
  cases pm with
  | none => exact ⟨rfl, by simp [pauseStep]⟩
  | some p =>
    by_cases h : (0 : ℚ) < p.consonant_length.getD 0 ∨ (0 : ℚ) < p.vowel_length.getD 0
    · refine ⟨?_, ?_⟩
      · simp only [pauseStep, if_pos h]
        exact ⟨rfl, rfl⟩
      · intro x hx
        simp only [pauseStep, if_pos h, List.mem_singleton] at hx
        subst hx; simp
    · simp only [pauseStep, if_neg h]
      exact ⟨rfl, by simp⟩

theorem phrasesLoop_run (ps : List Phrase) : ∀ t : ℚ,
    runFrom t (phrasesLoop t ps).1 (phrasesLoop t ps).2 ∧
    ∀ m ∈ (phrasesLoop t ps).1,
      m.end_time = m.start_time + m.consonant_length + m.vowel_length := by
  induction ps with
  | nil => exact fun t => ⟨rfl, by simp [phrasesLoop]⟩
  | cons p rest ih =>
    intro t
    have h1 := morasLoop_run p.moras t
    have h2 := pauseStep_run p.pause_mora (morasLoop t p.moras).2
    have h3 := ih (pauseStep (morasLoop t p.moras).2 p.pause_mora).2
    constructor
    · show runFrom t ((morasLoop t p.moras).1 ++ (pauseStep _ p.pause_mora).1 ++
        (phrasesLoop _ rest).1) (phrasesLoop _ rest).2
      exact runFrom_append (runFrom_append h1.1 h2.1) h3.1
    · intro x hx
      simp only [phrasesLoop, List.mem_append] at hx
      rcases hx with (hx | hx) | hx
      · exact h1.2 x hx
      · exact h2.2 x hx
      · exact h3.2 x hx

/-- C9: the output of `extract_mora_timings` is a contiguous timeline from 0:
each unit's span is its start plus its consonant and vowel lengths, the first
unit (if any) starts at 0, and each unit starts exactly where the previous one
ends, across phrase boundaries included. -/
theorem C9_claim (accent_phrases : List Phrase) :
    (∀ m ∈ extract_mora_timings accent_phrases,
      m.end_time = m.start_time + m.consonant_length + m.vowel_length) ∧
    (∀ m, (extract_mora_timings accent_phrases).head? = some m → m.start_time = 0) ∧
    List.Chain' (fun a b => b.start_time = a.end_time) (extract_mora_timings accent_phrases) := by
  have h := phrasesLoop_run accent_phrases 0
  exact ⟨h.2, runFrom_head h.1, runFrom_chain h.1⟩

/-- Witness for `C9_claim`: one phrase with one voiced mora and a pause. -/
theorem C9_witness :
    ∀ m ∈ extract_mora_timings
        [⟨[⟨some "あ", some (1/10), some (1/5), none⟩], some ⟨none, some (1/10), none, none⟩⟩],
      m.end_time = m.start_time + m.consonant_length + m.vowel_length :=
  (C9_claim
    [⟨[⟨some "あ", some (1/10), some (1/5), none⟩], some ⟨none, some (1/10), none, none⟩⟩]).1

/-! ## C10: chunks are consistent with their source morae -/

theorem concatTexts_cons (m : MoraTiming) (l : List MoraTiming) :
    concatTexts (m :: l) = m.text ++ concatTexts l := rfl

theorem concatTexts_append (l1 l2 : List MoraTiming) :
    concatTexts (l1 ++ l2) = concatTexts l1 ++ concatTexts l2 := by
  induction l1 with
  | nil => simp [concatTexts]
  | cons x xs ih => simp only [List.cons_append, concatTexts_cons, ih, String.append_assoc]

theorem concatTexts_singleton (m : MoraTiming) : concatTexts [m] = m.text := by
  show m.text ++ "" = m.text
  simp

theorem lastMora_append (m : MoraTiming) (xs : List MoraTiming) (y : MoraTiming)
    (ys : List MoraTiming) : lastMora m (xs ++ y :: ys) = lastMora y ys := by
  induction xs generalizing m with
  | nil => rfl
  | cons x xs ih => exact ih x

theorem lastMora_mem (m : MoraTiming) (l : List MoraTiming) : lastMora m l ∈ m :: l := by
  induction l generalizing m with
  | nil => simp [lastMora]
  | cons x xs ih =>
    have := ih x
    simp only [lastMora]
    rcases List.mem_cons.mp this with h | h
    · simp [h]
    · simp [List.mem_cons_of_mem, h]

theorem getLast?_eq_lastMora (m : MoraTiming) (l : List MoraTiming) :
    (m :: l).getLast? = some (lastMora m l) := by
  induction l generalizing m with
  | nil => rfl
  | cons x xs ih => rw [List.getLast?_cons_cons, ih]; rfl

theorem string_append_ne_empty_left (a b : String) (h : a ≠ "") : a ++ b ≠ "" := by
  intro hab
  apply h
  have h1 : (a ++ b).length = 0 := by rw [hab]; rfl
  rw [String.length_append] at h1
  have : a.length = 0 := by omega
  cases a with
  | mk data =>
    cases data with
    | nil => rfl
    | cons c cs => simp [String.length, List.length] at this

theorem goodChunk_create (m0 : MoraTiming) (ms : List MoraTiming)
    (h : ∀ m ∈ m0 :: ms, m.text ≠ "") :
    goodChunk (_create_chunk_from_moras (m0 :: ms) (concatTexts (m0 :: ms))) :=
  ⟨⟨m0, ms, rfl, rfl, rfl⟩, rfl, h⟩

theorem chunksLoop_good (moras : List MoraTiming) : ∀ (index : ℕ)
    (all_moras cm : List MoraTiming) (ct : String) (chunks : List SubtitleChunk),
    ct = concatTexts cm → (∀ m ∈ cm, m.text ≠ "") → (∀ c ∈ chunks, goodChunk c) →
    ∀ c ∈ chunksLoop moras index all_moras cm ct chunks, goodChunk c := by
  induction moras with
  | nil =>
    intro index all_moras cm ct chunks hct hcm hchunks c hc
    rw [chunksLoop] at hc
    split_ifs at hc with h
    · rcases List.mem_append.mp hc with h' | h'
      · exact hchunks c h'
      · rcases cm with _ | ⟨m0, ms⟩
        · simp at h
        · simp only [List.mem_singleton] at h'
          subst h' hct
          exact goodChunk_create m0 ms hcm
    · exact hchunks c hc
  | cons mora rest ih =>
    intro index all_moras cm ct chunks hct hcm hchunks c hc
    rw [chunksLoop] at hc
    dsimp only at hc
    split_ifs at hc with h1 h2
    · exact ih _ _ _ _ _ hct hcm hchunks c hc
    · refine ih _ _ [mora] mora.text _ (concatTexts_singleton mora).symm ?_ ?_ c hc
      · intro m hm
        rcases List.mem_singleton.mp hm with rfl
        exact h1
      · intro c' hc'
        rcases List.mem_append.mp hc' with h' | h'
        · exact hchunks c' h'
        · simp only [List.mem_singleton] at h'
          subst h'
          rcases cm with _ | ⟨m0, ms⟩
          · exact absurd rfl h2.2
          · subst hct
            exact goodChunk_create m0 ms hcm
    · refine ih _ _ (cm ++ [mora]) (ct ++ mora.text) _ ?_ ?_ hchunks c hc
      · rw [hct, concatTexts_append, concatTexts_singleton]
      · intro m hm
        rcases List.mem_append.mp hm with h' | h'
        · exact hcm m h'
        · rcases List.mem_singleton.mp h' with rfl
          exact h1

theorem optimize_good : ∀ l : List SubtitleChunk, (∀ c ∈ l, goodChunk c) →
    ∀ c ∈ _optimize_chunks l, goodChunk c
  | [], _ => by simp [_optimize_chunks]
  | [c], h => by simpa [_optimize_chunks] using h
  | c1 :: c2 :: rest, h => by
    rw [_optimize_chunks]
    split_ifs with hcond
    · intro c hc
      rcases List.mem_cons.mp hc with rfl | hc'
      · obtain ⟨⟨m0, ms, hm, hs, he⟩, ht, hne⟩ := h c1 (by simp)
        obtain ⟨⟨n0, ns, hm2, hs2, he2⟩, ht2, hne2⟩ := h c2 (by simp)
        refine ⟨⟨m0, ms ++ n0 :: ns, ?_, hs, ?_⟩, ?_, ?_⟩
        · show c1.moras ++ c2.moras = _
          rw [hm, hm2]; rfl
        · show c2.end_time = _
          rw [lastMora_append, he2]
        · show c1.text ++ c2.text = concatTexts (c1.moras ++ c2.moras)
          rw [ht, ht2, concatTexts_append]
        · intro m hm'
          rcases List.mem_append.mp hm' with h' | h'
          · exact hne m h'
          · exact hne2 m h'
      · exact optimize_good rest (fun c hc => h c (by simp [hc])) c hc'
    · intro c hc
      rcases List.mem_cons.mp hc with rfl | hc'
      · exact h _ (by simp)
      · exact optimize_good (c2 :: rest)
          (fun c hc => h c (List.mem_cons_of_mem _ hc)) c hc'

/-- C10: every chunk returned by `create_subtitle_chunks` — the optimization
merge pass included — has text equal to the in-order concatenation of its
morae's texts, a nonempty mora list and text, start time equal to its first
mora's start, and end time equal to its last mora's end. -/
theorem C10_claim (mora_timings : List MoraTiming) :
    ∀ c ∈ create_subtitle_chunks mora_timings,
      c.text = concatTexts c.moras ∧ c.moras ≠ [] ∧ c.text ≠ "" ∧
      (∀ m, c.moras.head? = some m → c.start_time = m.start_time) ∧
      (∀ m, c.moras.getLast? = some m → c.end_time = m.end_time) := by
  intro c hc
  rw [create_subtitle_chunks] at hc
  split_ifs at hc with h
  · simp at hc
  · have hg := optimize_good _
      (chunksLoop_good mora_timings 0 mora_timings [] "" [] rfl (by simp) (by simp)) c hc
    obtain ⟨⟨m0, ms, hm, hs, he⟩, ht, hne⟩ := hg
    refine ⟨ht, by simp [hm], ?_, ?_, ?_⟩
    · rw [ht, hm, concatTexts_cons]
      exact string_append_ne_empty_left _ _ (hne m0 (by simp [hm]))
    · intro m hm'
      rw [hm] at hm'
      cases hm'
      exact hs
    · intro m hm'
      rw [hm, getLast?_eq_lastMora] at hm'
      cases hm'
      exact he

/-- Witness for `C10_claim` on a single-mora input. -/
theorem C10_witness :
    (⟨"あ", 0, 1, [⟨"あ", 0, 1, 0, 1, 0⟩]⟩ : SubtitleChunk).text =
      concatTexts (⟨"あ", 0, 1, [⟨"あ", 0, 1, 0, 1, 0⟩]⟩ : SubtitleChunk).moras ∧
    (⟨"あ", 0, 1, [⟨"あ", 0, 1, 0, 1, 0⟩]⟩ : SubtitleChunk).moras ≠ [] ∧
    (⟨"あ", 0, 1, [⟨"あ", 0, 1, 0, 1, 0⟩]⟩ : SubtitleChunk).text ≠ "" ∧
    (∀ m, (⟨"あ", 0, 1, [⟨"あ", 0, 1, 0, 1, 0⟩]⟩ : SubtitleChunk).moras.head? = some m →
      (⟨"あ", 0, 1, [⟨"あ", 0, 1, 0, 1, 0⟩]⟩ : SubtitleChunk).start_time = m.start_time) ∧
    (∀ m, (⟨"あ", 0, 1, [⟨"あ", 0, 1, 0, 1, 0⟩]⟩ : SubtitleChunk).moras.getLast? = some m →
      (⟨"あ", 0, 1, [⟨"あ", 0, 1, 0, 1, 0⟩]⟩ : SubtitleChunk).end_time = m.end_time) := by
  have heval : create_subtitle_chunks [⟨"あ", 0, 1, 0, 1, 0⟩] =
      [⟨"あ", 0, 1, [⟨"あ", 0, 1, 0, 1, 0⟩]⟩] := by
    norm_num [create_subtitle_chunks, chunksLoop, _should_split_chunk, _create_chunk_from_moras,
      _optimize_chunks, lastMora]
  exact C10_claim [⟨"あ", 0, 1, 0, 1, 0⟩] ⟨"あ", 0, 1, [⟨"あ", 0, 1, 0, 1, 0⟩]⟩
    (by rw [heval]; simp)

/-! ## Ordering machinery for C2 and C6 -/

theorem mc_nil : MoraChain [] := ⟨List.chain'_nil, by simp⟩

theorem mc_tail {m : MoraTiming} {l : List MoraTiming} (h : MoraChain (m :: l)) :
    MoraChain l :=
  ⟨(List.chain'_cons'.mp h.1).2, fun x hx => h.2 x (List.mem_cons_of_mem _ hx)⟩

theorem mc_le_of_mem {m : MoraTiming} : ∀ {l : List MoraTiming}, MoraChain (m :: l) →
    ∀ y ∈ l, m.end_time ≤ y.start_time := by
  intro l
  induction l generalizing m with
  | nil => intro _ y hy; cases hy
  | cons a l ih =>
    intro h y hy
    have hma : m.end_time ≤ a.start_time := (List.chain'_cons.mp h.1).1
    rcases List.mem_cons.mp hy with rfl | hy'
    · exact hma
    · have haa : a.start_time ≤ a.end_time := h.2 a (by simp)
      have := ih (mc_tail h) y hy'
      linarith

theorem mc_append_elim : ∀ {l1 l2 : List MoraTiming}, MoraChain (l1 ++ l2) →
    MoraChain l1 ∧ MoraChain l2 ∧ ∀ x ∈ l1, ∀ y ∈ l2, x.end_time ≤ y.start_time := by
  intro l1
  induction l1 with
  | nil =>
    intro l2 h
    exact ⟨mc_nil, h, by simp⟩
  | cons a l1 ih =>
    intro l2 h
    obtain ⟨h1, h2, hx⟩ := ih (mc_tail h)
    refine ⟨⟨?_, fun x hx' => h.2 x (by
      rcases List.mem_cons.mp hx' with rfl | h''
      · exact List.mem_cons_self _ _
      · exact List.mem_cons_of_mem _ (List.mem_append_left _ h''))⟩, h2, ?_⟩
    · rcases l1 with _ | ⟨b, l1'⟩
      · exact List.chain'_singleton _
      · exact List.chain'_cons.mpr ⟨(List.chain'_cons.mp h.1).1, h1.1⟩
    · intro x hx' y hy
      rcases List.mem_cons.mp hx' with rfl | hx''
      · exact mc_le_of_mem h y (List.mem_append_right _ hy)
      · exact hx x hx'' y hy

theorem mc_drop_mid : ∀ {l1 : List MoraTiming} {y : MoraTiming} {l2 : List MoraTiming},
    MoraChain (l1 ++ y :: l2) → MoraChain (l1 ++ l2) := by
  intro l1 y l2 h
  have hmem : ∀ m ∈ l1 ++ l2, m.start_time ≤ m.end_time := by
    intro m hm
    apply h.2 m
    rcases List.mem_append.mp hm with h' | h'
    · exact List.mem_append_left _ h'
    · exact List.mem_append_right _ (List.mem_cons_of_mem _ h')
  refine ⟨?_, hmem⟩
  obtain ⟨hc1, hc2, hcross⟩ := List.chain'_append.mp h.1
  refine List.chain'_append.mpr ⟨hc1, (List.chain'_cons'.mp hc2).2, ?_⟩
  intro x hx z hz
  have h1 : x.end_time ≤ y.start_time := hcross x hx y rfl
  have h2 : y.start_time ≤ y.end_time := h.2 y (by simp)
  have h3 : y.end_time ≤ z.start_time := (List.chain'_cons'.mp hc2).1 z hz
  linarith

theorem mc_head_le_lastMora : ∀ {ms : List MoraTiming} {m0 : MoraTiming},
    MoraChain (m0 :: ms) → m0.start_time ≤ (lastMora m0 ms).end_time := by
  intro ms
  induction ms with
  | nil => intro m0 h; exact h.2 m0 (by simp)
  | cons a ms ih =>
    intro m0 h
    have h1 : m0.start_time ≤ m0.end_time := h.2 m0 (by simp)
    have h2 : m0.end_time ≤ a.start_time := (List.chain'_cons.mp h.1).1
    have h3 := ih (mc_tail h)
    show m0.start_time ≤ (lastMora a ms).end_time
    linarith

theorem mc_head_lt_lastMora : ∀ {ms : List MoraTiming} {m0 : MoraTiming},
    MoraChain (m0 :: ms) → (∀ m ∈ m0 :: ms, m.start_time < m.end_time) →
    m0.start_time < (lastMora m0 ms).end_time := by
  intro ms
  induction ms with
  | nil => intro m0 _ hs; exact hs m0 (by simp)
  | cons a ms ih =>
    intro m0 h hs
    have h1 : m0.start_time < m0.end_time := hs m0 (by simp)
    have h2 : m0.end_time ≤ a.start_time := (List.chain'_cons.mp h.1).1
    have h3 := ih (mc_tail h) (fun m hm => hs m (List.mem_cons_of_mem _ hm))
    show m0.start_time < (lastMora a ms).end_time
    linarith

theorem ordered_append_singleton {chunks : List SubtitleChunk} {c : SubtitleChunk}
    (h : orderedChunks chunks) (hc : c.start_time ≤ c.end_time)
    (hle : ∀ d ∈ chunks, d.end_time ≤ c.start_time) : orderedChunks (chunks ++ [c]) := by
  refine ⟨?_, ?_⟩
  · intro d hd
    rcases List.mem_append.mp hd with h' | h'
    · exact h.1 d h'
    · rcases List.mem_singleton.mp h' with rfl
      exact hc
  · refine List.chain'_append.mpr ⟨h.2, List.chain'_singleton _, ?_⟩
    intro x hx y hy
    rcases hy
    exact hle x (List.mem_of_mem_getLast? hx)

theorem chunksLoop_ordered (moras : List MoraTiming) : ∀ (index : ℕ)
    (all_moras cm : List MoraTiming) (ct : String) (chunks : List SubtitleChunk),
    MoraChain (cm ++ moras) → orderedChunks chunks →
    (∀ c ∈ chunks, ∀ m ∈ cm ++ moras, c.end_time ≤ m.start_time) →
    orderedChunks (chunksLoop moras index all_moras cm ct chunks) := by
  induction moras with
  | nil =>
    intro index all_moras cm ct chunks hmc hord hbd
    rw [chunksLoop]
    split_ifs with h
    · rcases cm with _ | ⟨m0, ms⟩
      · simp at h
      · apply ordered_append_singleton hord
        · show m0.start_time ≤ (lastMora m0 ms).end_time
          exact mc_head_le_lastMora (by simpa using hmc)
        · intro d hd
          exact hbd d hd m0 (by simp)
    · exact hord
  | cons mora rest ih =>
    intro index all_moras cm ct chunks hmc hord hbd
    rw [chunksLoop]
    dsimp only
    split_ifs with h1 h2
    · refine ih _ _ _ _ _ (mc_drop_mid hmc) hord ?_
      intro c hc m hm
      apply hbd c hc
      rcases List.mem_append.mp hm with h' | h'
      · exact List.mem_append_left _ h'
      · exact List.mem_append_right _ (List.mem_cons_of_mem _ h')
    · rcases cm with _ | ⟨m0, ms⟩
      · exact absurd rfl h2.2
      obtain ⟨hcm, hrest, hcross⟩ := mc_append_elim hmc
      refine ih _ _ [mora] mora.text _ hrest ?_ ?_
      · apply ordered_append_singleton hord
        · show m0.start_time ≤ (lastMora m0 ms).end_time
          exact mc_head_le_lastMora hcm
        · intro d hd
          exact hbd d hd m0 (by simp)
      · intro c hc m hm
        have hm' : m ∈ mora :: rest := hm
        rcases List.mem_append.mp hc with hc' | hc'
        · exact hbd c hc' m (List.mem_append_right _ hm')
        · rcases List.mem_singleton.mp hc' with rfl
          show (lastMora m0 ms).end_time ≤ m.start_time
          exact hcross _ (lastMora_mem m0 ms) m hm'
    · refine ih _ _ (cm ++ [mora]) _ _ ?_ hord ?_
      · simpa [List.append_assoc] using hmc
      · intro c hc m hm
        apply hbd c hc
        rcases List.mem_append.mp hm with h' | h'
        · rcases List.mem_append.mp h' with h'' | h''
          · exact List.mem_append_left _ h''
          · rcases List.mem_singleton.mp h'' with rfl
            exact List.mem_append_right _ (by simp)
        · exact List.mem_append_right _ (List.mem_cons_of_mem _ h')

theorem optimize_head_start : ∀ {l : List SubtitleChunk} {c : SubtitleChunk}
    {cs : List SubtitleChunk}, _optimize_chunks l = c :: cs →
    ∃ d ds, l = d :: ds ∧ c.start_time = d.start_time := by
  intro l c cs h
  rcases l with _ | ⟨d1, ds⟩
  · simp [_optimize_chunks] at h
  rcases ds with _ | ⟨d2, rest⟩
  · rw [_optimize_chunks] at h
    cases h
    exact ⟨_, _, rfl, rfl⟩
  · rw [_optimize_chunks] at h
    split_ifs at h
    · cases h
      exact ⟨_, _, rfl, rfl⟩
    · cases h
      exact ⟨_, _, rfl, rfl⟩

theorem optimize_ordered : ∀ l : List SubtitleChunk, orderedChunks l →
    orderedChunks (_optimize_chunks l)
  | [], h => by simpa [_optimize_chunks] using h
  | [c], h => by simpa [_optimize_chunks] using h
  | c1 :: c2 :: rest, h => by
    have h12 : c1.end_time ≤ c2.start_time := (List.chain'_cons.mp h.2).1
    have htail : orderedChunks (c2 :: rest) :=
      ⟨fun d hd => h.1 d (List.mem_cons_of_mem _ hd), (List.chain'_cons.mp h.2).2⟩
    have htail2 : orderedChunks rest :=
      ⟨fun d hd => htail.1 d (List.mem_cons_of_mem _ hd), (List.chain'_cons'.mp htail.2).2⟩
    rw [_optimize_chunks]
    split_ifs with hcond
    · have hrec := optimize_ordered rest htail2
      have hs1 : c1.start_time ≤ c1.end_time := h.1 c1 (by simp)
      have hs2 : c2.start_time ≤ c2.end_time := h.1 c2 (by simp)
      refine ⟨?_, ?_⟩
      · intro d hd
        rcases List.mem_cons.mp hd with rfl | hd'
        · show c1.start_time ≤ c2.end_time
          linarith
        · exact hrec.1 d hd'
      · refine List.chain'_cons'.mpr ⟨?_, hrec.2⟩
        intro y hy
        rcases heq : _optimize_chunks rest with _ | ⟨c, cs⟩
        · rw [heq] at hy; cases hy
        · rw [heq] at hy
          cases hy
          obtain ⟨d, ds, hrest, hstart⟩ := optimize_head_start heq
          show c2.end_time ≤ y.start_time
          subst hrest
          rw [hstart]
          exact (List.chain'_cons.mp htail.2).1
    · have hrec := optimize_ordered (c2 :: rest) htail
      refine ⟨?_, ?_⟩
      · intro d hd
        rcases List.mem_cons.mp hd with rfl | hd'
        · exact h.1 _ (by simp)
        · exact hrec.1 d hd'
      · refine List.chain'_cons'.mpr ⟨?_, hrec.2⟩
        intro y hy
        rcases heq : _optimize_chunks (c2 :: rest) with _ | ⟨c, cs⟩
        · rw [heq] at hy; cases hy
        · rw [heq] at hy
          cases hy
          obtain ⟨d, ds, hrest, hstart⟩ := optimize_head_start heq
          show c1.end_time ≤ y.start_time
          rw [hstart]
          cases hrest
          exact h12

theorem optimize_strict : ∀ l : List SubtitleChunk, orderedChunks l →
    (∀ c ∈ l, c.start_time < c.end_time) →
    ∀ c ∈ _optimize_chunks l, c.start_time < c.end_time
  | [], _, _ => by simp [_optimize_chunks]
  | [c], _, hs => by simpa [_optimize_chunks] using hs
  | c1 :: c2 :: rest, h, hs => by
    have h12 : c1.end_time ≤ c2.start_time := (List.chain'_cons.mp h.2).1
    have htail : orderedChunks (c2 :: rest) :=
      ⟨fun d hd => h.1 d (List.mem_cons_of_mem _ hd), (List.chain'_cons.mp h.2).2⟩
    have htail2 : orderedChunks rest :=
      ⟨fun d hd => htail.1 d (List.mem_cons_of_mem _ hd), (List.chain'_cons'.mp htail.2).2⟩
    rw [_optimize_chunks]
    split_ifs with hcond
    · intro c hc
      rcases List.mem_cons.mp hc with rfl | hc'
      · show c1.start_time < c2.end_time
        have := hs c1 (by simp)
        have := hs c2 (by simp)
        linarith
      · exact optimize_strict rest htail2
          (fun c hc => hs c (by simp [hc])) c hc'
    · intro c hc
      rcases List.mem_cons.mp hc with rfl | hc'
      · exact hs _ (by simp)
      · exact optimize_strict (c2 :: rest) htail
          (fun c hc => hs c (List.mem_cons_of_mem _ hc)) c hc'

theorem ordered_starts : ∀ {l : List SubtitleChunk}, orderedChunks l →
    List.Chain' (fun a b => a.start_time ≤ b.start_time) l
  | [], _ => List.chain'_nil
  | [_], _ => List.chain'_singleton _
  | a :: b :: l, h => by
    have hab : a.end_time ≤ b.start_time := (List.chain'_cons.mp h.2).1
    have ha : a.start_time ≤ a.end_time := h.1 a (by simp)
    refine List.chain'_cons.mpr ⟨by linarith, ?_⟩
    exact ordered_starts ⟨fun d hd => h.1 d (List.mem_cons_of_mem _ hd),
      (List.chain'_cons.mp h.2).2⟩

theorem chunksLoop_strict (moras : List MoraTiming) : ∀ (index : ℕ)
    (all_moras cm : List MoraTiming) (ct : String) (chunks : List SubtitleChunk),
    MoraChain (cm ++ moras) → (∀ m ∈ cm ++ moras, m.start_time < m.end_time) →
    (∀ c ∈ chunks, c.start_time < c.end_time) →
    ∀ c ∈ chunksLoop moras index all_moras cm ct chunks, c.start_time < c.end_time := by
  induction moras with
  | nil =>
    intro index all_moras cm ct chunks hmc hstrict hchunks c hc
    rw [chunksLoop] at hc
    split_ifs at hc with h
    · rcases List.mem_append.mp hc with h' | h'
      · exact hchunks c h'
      · rcases cm with _ | ⟨m0, ms⟩
        · simp at h
        · rcases List.mem_singleton.mp h' with rfl
          show m0.start_time < (lastMora m0 ms).end_time
          exact mc_head_lt_lastMora (by simpa using hmc)
            (fun m hm => hstrict m (by simpa using hm))
    · exact hchunks c hc
  | cons mora rest ih =>
    intro index all_moras cm ct chunks hmc hstrict hchunks c hc
    rw [chunksLoop] at hc
    dsimp only at hc
    split_ifs at hc with h1 h2
    · refine ih _ _ _ _ _ (mc_drop_mid hmc) ?_ hchunks c hc
      intro m hm
      apply hstrict m
      rcases List.mem_append.mp hm with h' | h'
      · exact List.mem_append_left _ h'
      · exact List.mem_append_right _ (List.mem_cons_of_mem _ h')
    · rcases cm with _ | ⟨m0, ms⟩
      · exact absurd rfl h2.2
      obtain ⟨hcm, hrest, -⟩ := mc_append_elim hmc
      refine ih _ _ [mora] mora.text _ hrest ?_ ?_ c hc
      · intro m hm
        exact hstrict m (List.mem_append_right _ hm)
      · intro c' hc'
        rcases List.mem_append.mp hc' with h' | h'
        · exact hchunks c' h'
        · rcases List.mem_singleton.mp h' with rfl
          show m0.start_time < (lastMora m0 ms).end_time
          exact mc_head_lt_lastMora hcm
            (fun m hm => hstrict m (List.mem_append_left _ hm))
    · refine ih _ _ (cm ++ [mora]) _ _ ?_ ?_ hchunks c hc
      · simpa [List.append_assoc] using hmc
      · intro m hm
        apply hstrict m
        rcases List.mem_append.mp hm with h' | h'
        · rcases List.mem_append.mp h' with h'' | h''
          · exact List.mem_append_left _ h''
          · rcases List.mem_singleton.mp h'' with rfl
            exact List.mem_append_right _ (by simp)
        · exact List.mem_append_right _ (List.mem_cons_of_mem _ h')

theorem displayDuration_pos (total_duration : ℚ) (total_chars length : ℕ) :
    0 < displayDuration total_duration total_chars length :=
  lt_of_lt_of_le (by norm_num [min_display_time]) (le_max_left _ _)

theorem segLoop_props : ∀ (pairs : List (String × ℕ)) (td : ℚ) (tc : ℕ) (ct : ℚ), ct < td →
    (∀ s ∈ segLoop pairs td tc ct,
      ct ≤ s.start_time ∧ s.start_time < s.end_time ∧ s.end_time ≤ td) ∧
    List.Chain' (fun a b : Segment => a.end_time ≤ b.start_time) (segLoop pairs td tc ct) := by
  intro pairs
  induction pairs with
  | nil =>
    intro td tc ct _
    exact ⟨by simp [segLoop], by simp [segLoop]⟩
  | cons p rest ih =>
    intro td tc ct hct
    obtain ⟨sentence, length⟩ := p
    rw [segLoop]
    by_cases hl : length = 0
    · rw [if_pos hl]
      exact ih td tc ct hct
    · rw [if_neg hl]
      dsimp only
      set dd := displayDuration td tc length with hdd
      have hddpos : 0 < dd := displayDuration_pos td tc length
      set en := if td < ct + dd then td else ct + dd with hen
      have hlt : ct < en := by
        rw [hen]
        split_ifs with h
        · exact hct
        · linarith
      have hle : en ≤ td := by
        rw [hen]
        split_ifs with h
        · exact le_refl td
        · exact not_lt.mp h
      by_cases hbr : td ≤ en + min_subtitle_gap
      · rw [if_pos hbr]
        refine ⟨?_, List.chain'_singleton _⟩
        intro s hs
        rcases List.mem_singleton.mp hs with rfl
        exact ⟨le_refl ct, hlt, hle⟩
      · rw [if_neg hbr]
        push_neg at hbr
        have hnext : en + min_subtitle_gap < td := hbr
        obtain ⟨ihm, ihc⟩ := ih td tc (en + min_subtitle_gap) hnext
        have hgap : (0 : ℚ) < min_subtitle_gap := by norm_num [min_subtitle_gap]
        refine ⟨?_, ?_⟩
        · intro s hs
          rcases List.mem_cons.mp hs with rfl | hs'
          · exact ⟨le_refl ct, hlt, hle⟩
          · obtain ⟨h1, h2, h3⟩ := ihm s hs'
            exact ⟨by linarith, h2, h3⟩
        · refine List.chain'_cons'.mpr ⟨?_, ihc⟩
          intro y hy
          have := (ihm y (List.mem_of_mem_head? hy)).1
          show en ≤ y.start_time
          linarith

theorem fixLast_id : ∀ (l : List Segment) (td : ℚ), (∀ s ∈ l, s.end_time ≤ td) →
    fixLast l td = l
  | [], _, _ => rfl
  | [s], td, h => by
    rw [fixLast, if_neg (not_lt.mpr (h s (by simp)))]
  | s :: s' :: rest, td, h => by
    rw [fixLast]
    congr 1
    exact fixLast_id (s' :: rest) td (fun x hx => h x (List.mem_cons_of_mem _ hx))

theorem seg_chain_starts : ∀ {l : List Segment},
    (∀ s ∈ l, s.start_time ≤ s.end_time) →
    List.Chain' (fun a b : Segment => a.end_time ≤ b.start_time) l →
    List.Chain' (fun a b : Segment => a.start_time ≤ b.start_time) l
  | [], _, _ => List.chain'_nil
  | [_], _, _ => List.chain'_singleton _
  | a :: b :: l, hs, hc => by
    have hab : a.end_time ≤ b.start_time := (List.chain'_cons.mp hc).1
    have ha : a.start_time ≤ a.end_time := hs a (by simp)
    refine List.chain'_cons.mpr ⟨by linarith, ?_⟩
    exact seg_chain_starts (fun s h => hs s (List.mem_cons_of_mem _ h))
      (List.chain'_cons.mp hc).2

theorem string_length_pos {s : String} (h : s ≠ "") : 0 < s.length := by
  cases s with
  | mk data =>
    cases data with
    | nil => exact absurd rfl h
    | cons c cs => simp [String.length]

theorem toPieces_ne_nil : ∀ (l : List Char), ∀ p ∈ toPieces l, p ≠ []
  | [] => by simp [toPieces]
  | c :: rest => by
    intro p hp
    rw [toPieces] at hp
    rcases List.mem_cons.mp hp with rfl | hp'
    · simp [max_chars_per_chunk]
    · exact toPieces_ne_nil _ p hp'
termination_by l => l.length
decreasing_by simp [max_chars_per_chunk]; omega

theorem emitPieces_props : ∀ (pieces : List (List Char)) (ed : ℚ) (slen : ℕ) (ct : ℚ),
    0 ≤ ed →
    (∀ c ∈ (emitPieces pieces ed slen ct).1,
      ct ≤ c.start_time ∧ c.start_time ≤ c.end_time ∧
        c.end_time ≤ (emitPieces pieces ed slen ct).2) ∧
    ct ≤ (emitPieces pieces ed slen ct).2 ∧
    List.Chain' (fun a b : SubtitleChunk => a.end_time ≤ b.start_time)
      (emitPieces pieces ed slen ct).1 := by
  intro pieces
  induction pieces with
  | nil =>
    intro ed slen ct _
    exact ⟨by simp [emitPieces], le_refl ct, by simp [emitPieces]⟩
  | cons p rest ih =>
    intro ed slen ct hed
    have hcd : (0 : ℚ) ≤ ed * (p.length : ℚ) / (slen : ℚ) :=
      div_nonneg (mul_nonneg hed (by positivity)) (by positivity)
    have hgap : (0 : ℚ) < 0.1 := by norm_num
    set cd := ed * (p.length : ℚ) / (slen : ℚ) with hcddef
    obtain ⟨ihm, ihct, ihc⟩ := ih ed slen (ct + cd + 0.1) hed
    rw [emitPieces]
    dsimp only
    refine ⟨?_, ?_, ?_⟩
    · intro c hc
      rcases List.mem_cons.mp hc with rfl | hc'
      · exact ⟨le_refl ct, by linarith, by dsimp only; linarith⟩
      · obtain ⟨h1, h2, h3⟩ := ihm c hc'
        exact ⟨by linarith, h2, h3⟩
    · dsimp only; linarith
    · refine List.chain'_cons'.mpr ⟨?_, ihc⟩
      intro y hy
      have := (ihm y (List.mem_of_mem_head? hy)).1
      show ct + cd ≤ y.start_time
      linarith

theorem textChunksLoop_ordered : ∀ (sents : List String) (td : ℚ) (tc : ℕ) (ct : ℚ),
    0 ≤ td →
    (∀ c ∈ textChunksLoop sents td tc ct, ct ≤ c.start_time ∧ c.start_time ≤ c.end_time) ∧
    List.Chain' (fun a b : SubtitleChunk => a.end_time ≤ b.start_time)
      (textChunksLoop sents td tc ct) := by
  intro sents
  induction sents with
  | nil =>
    intro td tc ct _
    exact ⟨by simp [textChunksLoop], by simp [textChunksLoop]⟩
  | cons sentence rest ih =>
    intro td tc ct htd
    rw [textChunksLoop]
    by_cases hs : sentence = ""
    · rw [if_pos hs]
      exact ih td tc ct htd
    · rw [if_neg hs]
      dsimp only
      set cshare := if 0 < tc then (sentence.length : ℚ) / (tc : ℚ) else 0 with hcsh
      have hcsh0 : 0 ≤ cshare := by
        rw [hcsh]
        split_ifs
        · positivity
        · exact le_refl 0
      have hest : 0 ≤ td * cshare := mul_nonneg htd hcsh0
      by_cases hlen : sentence.length ≤ max_chars_per_chunk
      · rw [if_pos hlen]
        obtain ⟨ihm, ihc⟩ := ih td tc (ct + td * cshare + 0.2) htd
        refine ⟨?_, ?_⟩
        · intro c hc
          rcases List.mem_cons.mp hc with rfl | hc'
          · exact ⟨le_refl ct, by dsimp only; linarith⟩
          · obtain ⟨h1, h2⟩ := ihm c hc'
            exact ⟨by linarith, h2⟩
        · refine List.chain'_cons'.mpr ⟨?_, ihc⟩
          intro y hy
          have := (ihm y (List.mem_of_mem_head? hy)).1
          show ct + td * cshare ≤ y.start_time
          linarith
      · rw [if_neg hlen]
        obtain ⟨epm, epct, epc⟩ :=
          emitPieces_props (toPieces sentence.data) (td * cshare) sentence.length ct hest
        obtain ⟨ihm, ihc⟩ := ih td tc
          (emitPieces (toPieces sentence.data) (td * cshare) sentence.length ct).2 htd
        refine ⟨?_, ?_⟩
        · intro c hc
          rcases List.mem_append.mp hc with hc' | hc'
          · obtain ⟨h1, h2, _⟩ := epm c hc'
            exact ⟨h1, h2⟩
          · obtain ⟨h1, h2⟩ := ihm c hc'
            exact ⟨le_trans epct h1, h2⟩
        · refine List.chain'_append.mpr ⟨epc, ihc, ?_⟩
          intro x hx y hy
          obtain ⟨-, -, h3⟩ := epm x (List.mem_of_mem_getLast? hx)
          have h4 := (ihm y (List.mem_of_mem_head? hy)).1
          exact le_trans h3 h4

theorem emitPieces_strict : ∀ (pieces : List (List Char)) (ed : ℚ) (slen : ℕ) (ct : ℚ),
    0 < ed → 0 < slen → (∀ p ∈ pieces, p ≠ []) →
    ∀ c ∈ (emitPieces pieces ed slen ct).1, c.start_time < c.end_time := by
  intro pieces
  induction pieces with
  | nil => intro ed slen ct _ _ _ c hc; simp [emitPieces] at hc
  | cons p rest ih =>
    intro ed slen ct hed hsl hne c hc
    have hplen : 0 < (p.length : ℚ) := by
      have := List.length_pos.mpr (hne p (by simp))
      exact_mod_cast this
    have hcd : (0 : ℚ) < ed * (p.length : ℚ) / (slen : ℚ) :=
      div_pos (mul_pos hed hplen) (by exact_mod_cast hsl)
    rw [emitPieces] at hc
    dsimp only at hc
    rcases List.mem_cons.mp hc with rfl | hc'
    · show ct < ct + ed * (p.length : ℚ) / (slen : ℚ)
      linarith
    · exact ih ed slen _ hed hsl (fun q hq => hne q (List.mem_cons_of_mem _ hq)) c hc'

theorem textChunksLoop_strict : ∀ (sents : List String) (td : ℚ) (tc : ℕ) (ct : ℚ),
    0 < td → 0 < tc →
    ∀ c ∈ textChunksLoop sents td tc ct, c.start_time < c.end_time := by
  intro sents
  induction sents with
  | nil => intro td tc ct _ _ c hc; simp [textChunksLoop] at hc
  | cons sentence rest ih =>
    intro td tc ct htd htc c hc
    rw [textChunksLoop] at hc
    by_cases hs : sentence = ""
    · rw [if_pos hs] at hc
      exact ih td tc ct htd htc c hc
    · rw [if_neg hs] at hc
      dsimp only at hc
      rw [if_pos htc] at hc
      have hlpos : 0 < (sentence.length : ℚ) := by
        exact_mod_cast string_length_pos hs
      have hest : 0 < td * ((sentence.length : ℚ) / (tc : ℚ)) :=
        mul_pos htd (div_pos hlpos (by exact_mod_cast htc))
      by_cases hlen : sentence.length ≤ max_chars_per_chunk
      · rw [if_pos hlen] at hc
        rcases List.mem_cons.mp hc with rfl | hc'
        · show ct < ct + td * ((sentence.length : ℚ) / (tc : ℚ))
          linarith
        · exact ih td tc _ htd htc c hc'
      · rw [if_neg hlen] at hc
        rcases List.mem_append.mp hc with hc' | hc'
        · exact emitPieces_strict _ _ _ _ hest (string_length_pos hs)
            (toPieces_ne_nil sentence.data) c hc'
        · exact ih td tc _ htd htc c hc'

/-- C2: each of the three segment producers yields a list that is sorted by
start time and non-overlapping (adjacent `end_time ≤ start_time`), for every
input conforming to the data model (`generate_segments` needs no assumption at
all; the mora-based paths assume the `MoraTiming` data-model invariants:
non-decreasing, non-overlapping unit spans, and for the text-based path also
non-negative times). -/
theorem C2_claim :
    (∀ (text : String) (total_duration : ℚ) (segs : List Segment),
      generate_subtitle_segments text total_duration = .ok segs →
      List.Chain' (fun a b : Segment => a.end_time ≤ b.start_time) segs ∧
      List.Chain' (fun a b : Segment => a.start_time ≤ b.start_time) segs) ∧
    (∀ timings : List MoraTiming, MoraChain timings →
      List.Chain' (fun a b : SubtitleChunk => a.end_time ≤ b.start_time)
        (create_subtitle_chunks timings) ∧
      List.Chain' (fun a b : SubtitleChunk => a.start_time ≤ b.start_time)
        (create_subtitle_chunks timings)) ∧
    (∀ (text : String) (timings : List MoraTiming), WFTimings timings →
      List.Chain' (fun a b : SubtitleChunk => a.end_time ≤ b.start_time)
        (create_subtitle_chunks_from_text_and_timings text timings) ∧
      List.Chain' (fun a b : SubtitleChunk => a.start_time ≤ b.start_time)
        (create_subtitle_chunks_from_text_and_timings text timings)) := by
  refine ⟨?_, ?_, ?_⟩
  · intro text td segs h
    rw [generate_subtitle_segments] at h
    split_ifs at h with h0
    dsimp only at h
    split_ifs at h with h1 h2
    · cases h; exact ⟨List.chain'_nil, List.chain'_nil⟩
    · cases h; exact ⟨List.chain'_nil, List.chain'_nil⟩
    · cases h
      have h0' : (0 : ℚ) < td := not_le.mp h0
      obtain ⟨hm, hc⟩ := segLoop_props
        ((_split_into_sentences text).zip
          ((_split_into_sentences text).map fun s => (pyStrip s).length)) td
        (((_split_into_sentences text).map fun s => (pyStrip s).length).sum) 0 h0'
      rw [fixLast_id _ _ (fun s hs => (hm s hs).2.2)]
      exact ⟨hc, seg_chain_starts (fun s hs => le_of_lt (hm s hs).2.1) hc⟩
  · intro timings hmc
    rw [create_subtitle_chunks]
    split_ifs with h
    · exact ⟨List.chain'_nil, List.chain'_nil⟩
    · have hord := optimize_ordered _ (chunksLoop_ordered timings 0 timings [] "" []
        (by simpa using hmc) ⟨by simp, List.chain'_nil⟩ (by simp))
      exact ⟨hord.2, ordered_starts hord⟩
  · intro text timings hwf
    rcases timings with _ | ⟨m0, ms⟩
    · exact ⟨List.chain'_nil, List.chain'_nil⟩
    · rw [create_subtitle_chunks_from_text_and_timings]
      have hlm : lastMora m0 ms ∈ m0 :: ms := lastMora_mem m0 ms
      have htd : 0 ≤ (lastMora m0 ms).end_time := by
        have h1 := hwf.2 _ hlm
        have h2 := hwf.1.2 _ hlm
        linarith
      obtain ⟨hm, hc⟩ := textChunksLoop_ordered (splitKeepLoop text.data "")
        (lastMora m0 ms).end_time text.length 0 htd
      exact ⟨hc, ordered_starts ⟨fun c hcm => (hm c hcm).2, hc⟩⟩

/-- Witness for `C2_claim`: the mora-based chunker on a single well-formed
mora. -/
theorem C2_witness :
    List.Chain' (fun a b : SubtitleChunk => a.end_time ≤ b.start_time)
      (create_subtitle_chunks [⟨"あ", 0, 1, 0, 1, 0⟩]) ∧
    List.Chain' (fun a b : SubtitleChunk => a.start_time ≤ b.start_time)
      (create_subtitle_chunks [⟨"あ", 0, 1, 0, 1, 0⟩]) :=
  C2_claim.2.1 [⟨"あ", 0, 1, 0, 1, 0⟩]
    ⟨List.chain'_singleton _, by
      intro x hx
      rcases List.mem_singleton.mp hx with rfl
      norm_num⟩

/-- C6: the claim as stated is false. A mora with zero consonant and vowel
length — allowed by the data model, and preserved by `extract_mora_timings`
when it carries text — produces a chunk with `end_time = start_time`. -/
theorem C6_counterexample :
    (∀ m ∈ [(⟨"あ", 0, 0, 0, 0, 0⟩ : MoraTiming)],
      m.start_time ≤ m.end_time ∧ 0 ≤ m.start_time ∧
      m.end_time = m.start_time + m.consonant_length + m.vowel_length) ∧
    create_subtitle_chunks [⟨"あ", 0, 0, 0, 0, 0⟩] =
      [⟨"あ", 0, 0, [⟨"あ", 0, 0, 0, 0, 0⟩]⟩] ∧
    ¬((⟨"あ", 0, 0, [⟨"あ", 0, 0, 0, 0, 0⟩]⟩ : SubtitleChunk).start_time <
      (⟨"あ", 0, 0, [⟨"あ", 0, 0, 0, 0, 0⟩]⟩ : SubtitleChunk).end_time) := by
  refine ⟨?_, ?_, by simp⟩
  · intro m hm
    rcases List.mem_singleton.mp hm with rfl
    norm_num
  · norm_num [create_subtitle_chunks, chunksLoop, _should_split_chunk, _create_chunk_from_moras,
      _optimize_chunks, lastMora, min_chunk_duration]

/-- C6 (amended): every produced segment satisfies `end_time > start_time`
provided every input mora itself has a strictly positive duration (the data
model allows a zero-length mora, which yields a zero-length segment);
`generate_segments` needs no extra assumption; empty inputs yield empty
outputs. -/
theorem C6_claim :
    (∀ (text : String) (total_duration : ℚ) (segs : List Segment),
      generate_subtitle_segments text total_duration = .ok segs →
      ∀ s ∈ segs, s.start_time < s.end_time) ∧
    (∀ total_duration : ℚ, 0 < total_duration →
      generate_subtitle_segments "" total_duration = .ok []) ∧
    (∀ timings : List MoraTiming, MoraChain timings →
      (∀ m ∈ timings, m.start_time < m.end_time) →
      ∀ c ∈ create_subtitle_chunks timings, c.start_time < c.end_time) ∧
    create_subtitle_chunks [] = [] ∧
    (∀ (text : String) (timings : List MoraTiming), WFTimings timings →
      (∀ m ∈ timings, m.start_time < m.end_time) →
      ∀ c ∈ create_subtitle_chunks_from_text_and_timings text timings,
        c.start_time < c.end_time) ∧
    (∀ text : String, create_subtitle_chunks_from_text_and_timings text [] = []) := by
  refine ⟨?_, ?_, ?_, by simp [create_subtitle_chunks], ?_, fun _ => rfl⟩
  · intro text td segs h
    rw [generate_subtitle_segments] at h
    split_ifs at h with h0
    dsimp only at h
    split_ifs at h with h1 h2
    · cases h; simp
    · cases h; simp
    · cases h
      have h0' : (0 : ℚ) < td := not_le.mp h0
      obtain ⟨hm, -⟩ := segLoop_props
        ((_split_into_sentences text).zip
          ((_split_into_sentences text).map fun s => (pyStrip s).length)) td
        (((_split_into_sentences text).map fun s => (pyStrip s).length).sum) 0 h0'
      rw [fixLast_id _ _ (fun s hs => (hm s hs).2.2)]
      exact fun s hs => (hm s hs).2.1
  · intro td htd
    rw [generate_subtitle_segments, if_neg (by linarith)]
    dsimp only
    rw [show _split_into_sentences "" = [] from rfl, if_pos rfl]
  · intro timings hmc hstrict
    rw [create_subtitle_chunks]
    split_ifs with h
    · simp
    · exact optimize_strict _
        (chunksLoop_ordered timings 0 timings [] "" [] (by simpa using hmc)
          ⟨by simp, List.chain'_nil⟩ (by simp))
        (chunksLoop_strict timings 0 timings [] "" [] (by simpa using hmc)
          (by simpa using hstrict) (by simp))
  · intro text timings hwf hstrict
    rcases timings with _ | ⟨m0, ms⟩
    · intro c hc; simp [create_subtitle_chunks_from_text_and_timings] at hc
    · rw [create_subtitle_chunks_from_text_and_timings]
      by_cases htext : text = ""
      · subst htext
        intro c hc
        simp [splitKeepLoop, pyStrip, textChunksLoop] at hc
      · have hlm : lastMora m0 ms ∈ m0 :: ms := lastMora_mem m0 ms
        have htd : 0 < (lastMora m0 ms).end_time := by
          have h1 := hwf.2 _ hlm
          have h2 := hstrict _ hlm
          linarith
        exact textChunksLoop_strict (splitKeepLoop text.data "")
          (lastMora m0 ms).end_time text.length 0 htd (string_length_pos htext)

/-- Witness for `C6_claim`: a positive duration with empty text yields the
empty segment list. -/
theorem C6_witness : generate_subtitle_segments "" 1 = .ok [] :=
  C6_claim.2.1 1 (by norm_num)

/-! ## C8: time-code round-trip and dialogue-text escaping -/

theorem digitVal_digitChar {d : ℕ} (h : d < 10) : digitVal (digitChar d) = d := by
  interval_cases d <;> decide

theorem isDigit_digitChar {d : ℕ} (h : d < 10) : (digitChar d).isDigit = true := by
  interval_cases d <;> decide

theorem digitsVal_concat (l : List Char) (c : Char) :
    digitsVal (l ++ [c]) = 10 * digitsVal l + digitVal c := by
  simp [digitsVal, List.foldl_append]

theorem digitsVal_pair {a b : ℕ} (ha : a < 10) (hb : b < 10) :
    digitsVal [digitChar a, digitChar b] = 10 * a + b := by
  show 10 * (10 * 0 + digitVal (digitChar a)) + digitVal (digitChar b) = 10 * a + b
  rw [digitVal_digitChar ha, digitVal_digitChar hb]
  ring

theorem rev_map_val : ∀ l : List ℕ, (∀ d ∈ l, d < 10) →
    digitsVal (l.reverse.map digitChar) = Nat.ofDigits 10 l := by
  intro l
  induction l with
  | nil => intro _; simp [digitsVal, Nat.ofDigits_nil]
  | cons a t ih =>
    intro h
    simp only [List.reverse_cons, List.map_append, List.map_cons, List.map_nil]
    rw [digitsVal_concat, ih (fun d hd => h d (List.mem_cons_of_mem _ hd)),
      digitVal_digitChar (h a (by simp)), Nat.ofDigits_cons]
    ring

theorem natRepr_props (n : ℕ) :
    (∀ ch ∈ (natRepr n).data, ch.isDigit = true) ∧ digitsVal (natRepr n).data = n ∧
    (natRepr n).data ≠ [] := by
  by_cases h : n = 0
  · subst h
    refine ⟨?_, ?_, ?_⟩ <;> decide
  · rw [natRepr, if_neg h]
    refine ⟨?_, ?_, ?_⟩
    · intro ch hch
      obtain ⟨d, hd, rfl⟩ := List.mem_map.mp hch
      exact isDigit_digitChar (Nat.digits_lt_base (by norm_num) (List.mem_reverse.mp hd))
    · rw [show ((⟨(Nat.digits 10 n).reverse.map digitChar⟩ : String)).data
        = (Nat.digits 10 n).reverse.map digitChar from rfl]
      rw [rev_map_val _ (fun d hd => Nat.digits_lt_base (by norm_num) hd),
        Nat.ofDigits_digits]
    · simp [Nat.digits_ne_nil_iff_ne_zero.mpr h]

theorem intRepr_natCast (k : ℕ) : intRepr (k : ℤ) = natRepr k := by
  rw [intRepr, if_neg (not_lt.mpr (Int.natCast_nonneg k))]
  congr 1

theorem pad2_data (k : ℕ) (hk : k < 100) :
    (pad2 (k : ℤ)).data = [digitChar (k / 10), digitChar (k % 10)] := by
  by_cases h10 : k < 10
  · rw [pad2, if_pos ⟨Int.natCast_nonneg k, by exact_mod_cast h10⟩, intRepr_natCast]
    rcases Nat.eq_zero_or_pos k with rfl | hk0
    · decide
    · rw [natRepr, if_neg (by omega),
        Nat.digits_def' (b := 10) (by norm_num) hk0, Nat.div_eq_of_lt h10,
        Nat.digits_zero, Nat.mod_eq_of_lt h10]
      have h0 : ('0' : Char) = digitChar 0 := by decide
      simp [String.data_append, h0]
      exact h0
  · rw [pad2, if_neg (by
      rintro ⟨-, hlt⟩
      exact h10 (by exact_mod_cast hlt)), intRepr_natCast]
    have hk0 : 0 < k := by omega
    have hdiv : 0 < k / 10 := Nat.div_pos (by omega) (by norm_num)
    rw [natRepr, if_neg (by omega), Nat.digits_def' (b := 10) (by norm_num) hk0,
      Nat.digits_def' (b := 10) (by norm_num) hdiv,
      show k / 10 / 10 = 0 by omega, Nat.digits_zero,
      show k / 10 % 10 = k / 10 by omega]
    simp

theorem span_digits_append (H R : List Char) (c : Char) (hH : ∀ x ∈ H, x.isDigit = true)
    (hc : c.isDigit = false) :
    (H ++ c :: R).takeWhile (fun x => x.isDigit) = H ∧
    (H ++ c :: R).dropWhile (fun x => x.isDigit) = c :: R := by
  induction H with
  | nil => simp [List.takeWhile_cons, List.dropWhile_cons, hc]
  | cons x H ih =>
    have hx := hH x (by simp)
    obtain ⟨h1, h2⟩ := ih (fun y hy => hH y (List.mem_cons_of_mem _ hy))
    simp [List.takeWhile_cons, List.dropWhile_cons, hx, h1, h2]

theorem parse_shape (H : List Char) (c1 c2 d1 d2 e1 e2 : Char) (hne : H ≠ [])
    (hH : ∀ x ∈ H, x.isDigit = true) (h1 : c1.isDigit = true) (h2 : c2.isDigit = true)
    (h3 : d1.isDigit = true) (h4 : d2.isDigit = true) (h5 : e1.isDigit = true)
    (h6 : e2.isDigit = true) :
    parseAssTime ⟨H ++ ':' :: c1 :: c2 :: ':' :: d1 :: d2 :: '.' :: e1 :: e2 :: []⟩ =
      some ((digitsVal H : ℚ) * 3600 + (digitsVal [c1, c2] : ℚ) * 60 +
        (digitsVal [d1, d2] : ℚ) + (digitsVal [e1, e2] : ℚ) / 100) := by
  obtain ⟨h0, H', rfl⟩ : ∃ h0 H', H = h0 :: H' := by
    rcases H with _ | ⟨h0, H'⟩
    · exact absurd rfl hne
    · exact ⟨h0, H', rfl⟩
  have hcol : (':' : Char).isDigit = false := by decide
  obtain ⟨ht, hd⟩ := span_digits_append (h0 :: H')
    (c1 :: c2 :: ':' :: d1 :: d2 :: '.' :: e1 :: e2 :: []) ':' hH hcol
  rw [parseAssTime]
  rw [show (⟨(h0 :: H') ++ ':' :: c1 :: c2 :: ':' :: d1 :: d2 :: '.' :: e1 :: e2 ::
    []⟩ : String).data = (h0 :: H') ++ ':' :: c1 :: c2 :: ':' :: d1 :: d2 :: '.' :: e1 ::
    e2 :: [] from rfl]
  rw [List.span_eq_take_drop, ht, hd]
  dsimp only
  rw [if_pos ⟨rfl, rfl, rfl, h1, h2, h3, h4, h5, h6⟩]

theorem format_nat_eq {s : ℚ} (hs : 0 ≤ s) :
    _format_ass_time s = natRepr ((⌊s * 100⌋).toNat / 360000) ++ ":" ++
      pad2 (((((⌊s * 100⌋).toNat % 360000) / 6000 : ℕ) : ℤ)) ++ ":" ++
      pad2 (((((⌊s * 100⌋).toNat % 6000) / 100 : ℕ) : ℤ)) ++ "." ++
      pad2 ((((⌊s * 100⌋).toNat % 100 : ℕ) : ℤ)) := by
  have h0 : (0 : ℚ) ≤ s * 100 := by positivity
  have hpy : pythonInt (s * 100) = ⌊s * 100⌋ := by
    rw [pythonInt, if_neg (not_lt.mpr h0)]
  have hfl : (0 : ℤ) ≤ ⌊s * 100⌋ := Int.floor_nonneg.mpr h0
  have hcast : (⌊s * 100⌋ : ℤ) = (((⌊s * 100⌋).toNat : ℕ) : ℤ) := by omega
  rw [_format_ass_time]
  rw [hpy, hcast]
  rw [show Int.ediv (((⌊s * 100⌋).toNat : ℕ) : ℤ) 360000
    = (((⌊s * 100⌋).toNat / 360000 : ℕ) : ℤ) from (Int.natCast_ediv _ _).symm]
  rw [show Int.emod (((⌊s * 100⌋).toNat : ℕ) : ℤ) 360000
    = ((((⌊s * 100⌋).toNat % 360000 : ℕ)) : ℤ) from rfl]
  rw [show Int.ediv ((((⌊s * 100⌋).toNat % 360000 : ℕ)) : ℤ) 6000
    = ((((⌊s * 100⌋).toNat % 360000) / 6000 : ℕ) : ℤ) from (Int.natCast_ediv _ _).symm]
  rw [show Int.emod (((⌊s * 100⌋).toNat : ℕ) : ℤ) 6000
    = ((((⌊s * 100⌋).toNat % 6000 : ℕ)) : ℤ) from rfl]
  rw [show Int.ediv ((((⌊s * 100⌋).toNat % 6000 : ℕ)) : ℤ) 100
    = ((((⌊s * 100⌋).toNat % 6000) / 100 : ℕ) : ℤ) from (Int.natCast_ediv _ _).symm]
  rw [show Int.emod (((⌊s * 100⌋).toNat : ℕ) : ℤ) 100
    = ((((⌊s * 100⌋).toNat % 100 : ℕ)) : ℤ) from rfl]
  rw [intRepr_natCast]
  simp [Int.toNat_natCast, sup_eq_left.mpr hfl]

theorem parse_format {s : ℚ} (hs : 0 ≤ s) :
    parseAssTime (_format_ass_time s) = some (((⌊s * 100⌋).toNat : ℚ) / 100) := by
  obtain ⟨hHd, hHval, hHne⟩ := natRepr_props ((⌊s * 100⌋).toNat / 360000)
  set n := (⌊s * 100⌋).toNat with hn
  have hm1 : (n % 360000) / 6000 < 100 := by omega
  have hm2 : (n % 6000) / 100 < 100 := by omega
  have hm3 : n % 100 < 100 := by omega
  have hstr : _format_ass_time s =
      ⟨(natRepr (n / 360000)).data ++ ':' :: digitChar ((n % 360000) / 6000 / 10) ::
        digitChar ((n % 360000) / 6000 % 10) :: ':' :: digitChar ((n % 6000) / 100 / 10) ::
        digitChar ((n % 6000) / 100 % 10) :: '.' :: digitChar (n % 100 / 10) ::
        digitChar (n % 100 % 10) :: []⟩ := by
    rw [format_nat_eq hs]
    apply congrArg String.mk ∘ fun h => h
    show ((natRepr (n / 360000) ++ ":" ++ pad2 (((n % 360000) / 6000 : ℕ) : ℤ) ++ ":" ++
      pad2 (((n % 6000) / 100 : ℕ) : ℤ) ++ "." ++ pad2 ((n % 100 : ℕ) : ℤ)) : String).data = _
    simp only [String.data_append, pad2_data _ hm1, pad2_data _ hm2, pad2_data _ hm3]
    simp [List.append_assoc]
  rw [hstr, parse_shape _ _ _ _ _ _ _ hHne hHd
    (isDigit_digitChar (by omega)) (isDigit_digitChar (by omega))
    (isDigit_digitChar (by omega)) (isDigit_digitChar (by omega))
    (isDigit_digitChar (by omega)) (isDigit_digitChar (by omega))]
  rw [digitsVal_pair (by omega) (by omega), digitsVal_pair (by omega) (by omega),
    digitsVal_pair (by omega) (by omega), hHval]
  congr 1
  rw [show 10 * ((n % 360000) / 6000 / 10) + (n % 360000) / 6000 % 10 = (n % 360000) / 6000
      from by omega,
    show 10 * ((n % 6000) / 100 / 10) + (n % 6000) / 100 % 10 = (n % 6000) / 100 from by omega,
    show 10 * (n % 100 / 10) + n % 100 % 10 = n % 100 from by omega]
  have hid : n = n / 360000 * 360000 + (n % 360000) / 6000 * 6000 + (n % 6000) / 100 * 100 +
      n % 100 := by omega
  have hcastid : ((n : ℕ) : ℚ) = ((n / 360000 : ℕ) : ℚ) * 360000 +
      (((n % 360000) / 6000 : ℕ) : ℚ) * 6000 + (((n % 6000) / 100 : ℕ) : ℚ) * 100 +
      ((n % 100 : ℕ) : ℚ) := by
    exact_mod_cast congrArg (fun k : ℕ => (k : ℚ)) hid
  rw [hcastid]
  ring

theorem esc_foldr_acc : ∀ (l : List Char) (acc : List Char),
    l.foldr escStep acc = l.foldr escStep [] ++ acc := by
  intro l
  induction l with
  | nil => intro acc; simp
  | cons c l ih =>
    intro acc
    show escStep c (l.foldr escStep acc) = escStep c (l.foldr escStep []) ++ acc
    rw [ih acc]
    rw [escStep, escStep]
    split_ifs <;> simp

theorem escape_append (a b : String) :
    escapeAssText (a ++ b) = escapeAssText a ++ escapeAssText b := by
  show (⟨(a.data ++ b.data).foldr escStep []⟩ : String) =
    ⟨a.data.foldr escStep [] ++ b.data.foldr escStep []⟩
  rw [List.foldr_append, esc_foldr_acc]

theorem escape_newline : escapeAssText "\n" = "\\N" := by decide

theorem escape_chars_id : ∀ l : List Char, (∀ c ∈ l, c ≠ '\n') →
    l.foldr escStep [] = l := by
  intro l
  induction l with
  | nil => intro _; rfl
  | cons c l ih =>
    intro h
    show escStep c (l.foldr escStep []) = c :: l
    rw [escStep, if_neg (h c (by simp)), ih (fun x hx => h x (List.mem_cons_of_mem _ hx))]

/-- C8: for non-negative times, the emitted `H:MM:SS.CC` time-code parses back
(via the inverse formatter `parseAssTime`) to the truncated centisecond value,
within 0.01 s of the original; each literal newline in a segment's text is
emitted as the two-character escape `\N`, newline-free text passes through
unchanged, and the dialogue line applies exactly this time formatting and this
escaping to each chunk with no other substitution. -/
theorem C8_claim :
    (∀ s : ℚ, 0 ≤ s → ∃ q : ℚ, parseAssTime (_format_ass_time s) = some q ∧
      0 ≤ s - q ∧ s - q < 1/100) ∧
    (∀ a b : String, escapeAssText (a ++ "\n" ++ b) =
      escapeAssText a ++ "\\N" ++ escapeAssText b) ∧
    (∀ a : String, (∀ c ∈ a.data, c ≠ '\n') → escapeAssText a = a) ∧
    (∀ (style_name : String) (chunk : SubtitleChunk), dialogueLine style_name chunk =
      "Dialogue: 0," ++ _format_ass_time chunk.start_time ++ "," ++
        _format_ass_time chunk.end_time ++ "," ++ style_name ++ ",,0,0,0,," ++
        escapeAssText chunk.text) := by
  refine ⟨?_, ?_, ?_, fun _ _ => rfl⟩
  · intro s hs
    have hnn : (0 : ℤ) ≤ ⌊s * 100⌋ := Int.floor_nonneg.mpr (by positivity)
    have hcast : (((⌊s * 100⌋).toNat : ℕ) : ℚ) = ((⌊s * 100⌋ : ℤ) : ℚ) := by
      norm_cast
      exact Int.toNat_of_nonneg hnn
    have h1 : ((⌊s * 100⌋ : ℤ) : ℚ) ≤ s * 100 := Int.floor_le _
    have h2 : s * 100 < ((⌊s * 100⌋ : ℤ) : ℚ) + 1 := Int.lt_floor_add_one _
    refine ⟨((⌊s * 100⌋).toNat : ℚ) / 100, parse_format hs, ?_, ?_⟩
    · rw [hcast]; linarith
    · rw [hcast]; linarith
  · intro a b
    rw [escape_append, escape_append, escape_newline]
  · intro a h
    show (⟨a.data.foldr escStep []⟩ : String) = a
    rw [escape_chars_id a.data h]

/-- Witness for `C8_claim`: the round trip at 1/3 s. -/
theorem C8_witness :
    ∃ q : ℚ, parseAssTime (_format_ass_time (1/3)) = some q ∧
      0 ≤ 1/3 - q ∧ 1/3 - q < 1/100 :=
  C8_claim.1 (1/3) (by norm_num)

end Meicho
